import Mathlib

/-!
Verification of the ktsdb storage/indexing core against its specification.

The Go source is shallowly embedded: machine integers become `Nat`/`Int`
with explicit reductions modulo `2 ^ 64` where the code casts, byte
buffers become `List Nat`, and the float64 sample values (which are only
moved around or combined by exact-for-the-test-inputs arithmetic) are
modelled by `ℚ`.  Stateful components (series registry, tag index) are
embedded as explicit state-passing functions.
-/

set_option autoImplicit false

namespace Ktsdb

/-! ## Codec (encoding.go)

`EncodeDataKey` writes `'d' | seriesID (BE u64) | uint64(^timestamp) (BE)`.
`'d'` is byte 100.  Go's `^` on `int64` is two's-complement bitwise not,
i.e. `-ts - 1`, and the cast to `uint64` reduces modulo `2 ^ 64`
(written as the literal 18446744073709551616 below). -/

/-- Big-endian bytes of a 64-bit word, as produced by `binary.BigEndian.PutUint64`. -/
def beBytes8 (n : Nat) : List Nat :=
  [n / 72057594037927936 % 256, n / 281474976710656 % 256,
   n / 1099511627776 % 256, n / 4294967296 % 256,
   n / 16777216 % 256, n / 65536 % 256, n / 256 % 256, n % 256]

/-- Big-endian read of a byte list, as `binary.BigEndian.Uint64` does. -/
def fromBE : List Nat → Nat
  | [] => 0
  | b :: rest => b * 256 ^ rest.length + fromBE rest

/-- `uint64(^timestamp)`: the int64 bitwise complement `-ts - 1` cast to `uint64`. -/
def complTs (ts : Int) : Nat :=
  ((-ts - 1) % 18446744073709551616).toNat

/-- Reinterpret a `uint64` value as `int64` (two's complement). -/
def i64ofNat (n : Nat) : Int :=
  if n < 9223372036854775808 then (n : Int) else (n : Int) - 18446744073709551616

/-- `EncodeDataKey`: `[PrefixData] ++ seriesID BE ++ uint64(^timestamp) BE` (17 bytes). -/
def EncodeDataKey (seriesID : Nat) (timestamp : Int) : List Nat :=
  100 :: (beBytes8 seriesID ++ beBytes8 (complTs timestamp))

/-- `DecodeDataKey`: series id from bytes 1..8, timestamp from complementing bytes 9..16. -/
def DecodeDataKey (buf : List Nat) : Nat × Int :=
  (fromBE ((buf.drop 1).take 8),
   i64ofNat (18446744073709551615 - fromBE ((buf.drop 9).take 8)))

/-- Lexicographic strict order on byte strings (the order Badger/`bytes.Compare` uses). -/
def lexLtB : List Nat → List Nat → Bool
  | _, [] => false
  | [], _ :: _ => true
  | a :: as, b :: bs =>
    if a < b then true
    else if b < a then false
    else lexLtB as bs

/-! ## Per-series range read (read.go `Database.Query`)

The per-series keyspace holds one entry per timestamp; Badger iterates the
17-byte keys in ascending lexicographic order, which for a fixed series is
ascending order of the complemented-timestamp word `negKey`.  The store
for one series is therefore modelled as a list of `(timestamp, value)`
entries sorted strictly ascending by `negKey`. -/

/-- The complemented-timestamp word that orders a series' data keys. -/
def negKey (ts : Int) : Nat :=
  ((-ts - 1) % 18446744073709551616).toNat

/-- `DataPoint` (read.go). -/
structure DataPoint where
  Timestamp : Int
  Value : ℚ
deriving DecidableEq, Repr

/-- `QueryOptions` (read.go): zero start/end/limit mean unbounded. -/
structure QueryOptions where
  Start : Int
  End : Int
  Limit : Int
deriving DecidableEq, Repr

/-- The iteration loop of `Database.Query`: stop when `Start > 0 && ts < Start`,
skip when `End > 0 && ts > End`, append otherwise, stop once
`Limit > 0 && len(points) >= Limit`. -/
def queryLoop (opts : QueryOptions) : List (Int × ℚ) → List DataPoint → List DataPoint
  | [], acc => acc.reverse
  | (ts, v) :: rest, acc =>
    if 0 < opts.Start ∧ ts < opts.Start then acc.reverse
    else if 0 < opts.End ∧ opts.End < ts then queryLoop opts rest acc
    else if 0 < opts.Limit ∧ opts.Limit ≤ ((DataPoint.mk ts v :: acc).length : Int) then
      (DataPoint.mk ts v :: acc).reverse
    else queryLoop opts rest (DataPoint.mk ts v :: acc)

/-- `Database.Query` on the (negKey-sorted) entries of one series: seek to the
encoded key for `End` when `End > 0` (the first entry whose `negKey` is at
least `negKey End`), else start at the series prefix, then run the loop. -/
def dbQuery (store : List (Int × ℚ)) (opts : QueryOptions) : List DataPoint :=
  let entries :=
    if 0 < opts.End then store.dropWhile (fun e => decide (negKey e.1 < negKey opts.End))
    else store
  queryLoop opts entries []

/-- Well-formedness of a per-series store: Badger keeps keys in strictly
ascending lexicographic order, i.e. strictly ascending `negKey`. -/
def StoreWF (store : List (Int × ℚ)) : Prop :=
  store.Pairwise (fun a b => negKey a.1 < negKey b.1)

instance (store : List (Int × ℚ)) : Decidable (StoreWF store) := by
  unfold StoreWF; infer_instance

/-! ## Aggregation (aggregate.go)

Sample values are modelled by `ℚ`; on the concrete inputs of the spec's
scenario S6 every float64 operation performed by the code is exact, so the
rational model mirrors the Go arithmetic.  The Go bucket map is modelled by
an association list in first-insertion order; since `Aggregate` sorts the
buckets by timestamp at the end and bucket keys are distinct, the map
iteration order does not affect the result. -/

/-- `AggregateFunc` (aggregate.go). -/
inductive AggregateFunc
  | AggAvg
  | AggSum
  | AggMin
  | AggMax
  | AggCount
deriving DecidableEq, Repr

/-- `Bucket` (aggregate.go). -/
structure Bucket where
  Timestamp : Int
  Value : ℚ
  Count : Nat
deriving DecidableEq, Repr

/-- `AggregateOptions` (aggregate.go). -/
structure AggregateOptions where
  Func : AggregateFunc
  BucketSize : Int
deriving DecidableEq, Repr

/-- `accumulator` (aggregate.go): zero value of the Go struct. -/
structure Accumulator where
  sum : ℚ
  min : ℚ
  max : ℚ
  count : Nat
deriving DecidableEq, Repr

/-- The zero-valued `&accumulator{}`. -/
def Accumulator.init : Accumulator := ⟨0, 0, 0, 0⟩

/-- `accumulator.add`. -/
def Accumulator.add (a : Accumulator) (v : ℚ) : Accumulator :=
  if a.count = 0 then ⟨a.sum + v, v, v, a.count + 1⟩
  else ⟨a.sum + v, if v < a.min then v else a.min,
        if a.max < v then v else a.max, a.count + 1⟩

/-- `accumulator.compute`. -/
def Accumulator.compute (a : Accumulator) (fn : AggregateFunc) : ℚ :=
  match fn with
  | .AggAvg => if a.count = 0 then 0 else a.sum / (a.count : ℚ)
  | .AggSum => a.sum
  | .AggMin => a.min
  | .AggMax => a.max
  | .AggCount => (a.count : ℚ)

/-- The bucket-key expression `(p.Timestamp / opts.BucketSize) * opts.BucketSize`
of `Aggregate`: Go's `/` on int64 truncates toward zero, which is `Int.tdiv`. -/
def bucketKey (ts bucketSize : Int) : Int :=
  ts.tdiv bucketSize * bucketSize

/-- Add a value to the bucket map under the given key (Go map insert/update). -/
def updateAssoc : List (Int × Accumulator) → Int → ℚ → List (Int × Accumulator)
  | [], key, v => [(key, Accumulator.init.add v)]
  | (k, a) :: rest, key, v =>
    if k = key then (k, a.add v) :: rest
    else (k, a) :: updateAssoc rest key v

/-- The bucket-filling loop of `Aggregate`. -/
def buildBuckets (points : List DataPoint) (bucketSize : Int) : List (Int × Accumulator) :=
  points.foldl (fun m p => updateAssoc m (bucketKey p.Timestamp bucketSize) p.Value) []

/-- Insert a bucket into a timestamp-sorted list (for `sortBuckets`). -/
def insertByTs (b : Bucket) : List Bucket → List Bucket
  | [] => [b]
  | c :: rest =>
    if b.Timestamp ≤ c.Timestamp then b :: c :: rest
    else c :: insertByTs b rest

/-- `sortBuckets`: sort ascending by bucket timestamp. -/
def sortBuckets : List Bucket → List Bucket
  | [] => []
  | b :: rest => insertByTs b (sortBuckets rest)

/-- `Aggregate` (aggregate.go): nil for empty input or non-positive bucket size,
else fill the bucket map and emit buckets sorted by timestamp. -/
def Aggregate (points : List DataPoint) (opts : AggregateOptions) : List Bucket :=
  if points.isEmpty ∨ opts.BucketSize ≤ 0 then []
  else
    sortBuckets ((buildBuckets points opts.BucketSize).map
      (fun ka => Bucket.mk ka.1 (ka.2.compute opts.Func) ka.2.count))

/-! ## Tagset and series registry (tagset.go, series.go)

`GetOrCreate` is embedded as explicit state passing over the existence
cache and the backing store (series key → decoded `SeriesMeta`).  The
xxHash64 function is an explicit parameter: the registry's behaviour
depends only on it being a function, and every theorem below is
quantified over it. -/

/-- `Tag` (tagset.go). -/
structure Tag where
  key : String
  value : String
deriving DecidableEq, Repr

/-- The `sort.Slice` comparison of `Tagset.Sort`: by key, then by value. -/
def tagLe (a b : Tag) : Bool :=
  decide (a.key < b.key ∨ (a.key = b.key ∧ a.value ≤ b.value))

/-- Insert a tag into a `tagLe`-sorted list. -/
def insertTag (t : Tag) : List Tag → List Tag
  | [] => [t]
  | u :: rest => if tagLe t u then t :: u :: rest else u :: insertTag t rest

/-- `Tagset.Sort`: sort by key, then value.  (`sort.Slice` is unstable, but
ties under the comparison are identical tags, so any correct sort by the
comparison gives the canonical list.) -/
def sortTags : List Tag → List Tag
  | [] => []
  | t :: rest => insertTag t (sortTags rest)

/-- `SeriesMeta` (series.go): the decoded record stored under the series key. -/
structure SeriesMeta where
  metric : String
  tags : List Tag
deriving DecidableEq, Repr

/-- State of a `SeriesRegistry`: the existence cache and the backing store
(series id → decoded meta record). -/
structure RegState where
  cache : List Nat
  store : List (Nat × SeriesMeta)
deriving DecidableEq, Repr

/-- `SeriesRegistry.GetOrCreate`: sort the tags, hash, consult the cache,
then inside the store transaction look the series key up, writing the
marshalled meta record only when absent.  Returns (id, created, state). -/
def GetOrCreate (hash : String → List Tag → Nat) (metric : String) (tags : List Tag)
    (st : RegState) : Nat × Bool × RegState :=
  let sorted := sortTags tags
  let id := hash metric sorted
  if id ∈ st.cache then (id, false, st)
  else
    match st.store.lookup id with
    | some _ => (id, false, ⟨id :: st.cache, st.store⟩)
    | none =>
      (id, true, ⟨id :: st.cache, (id, SeriesMeta.mk metric sorted) :: st.store⟩)

/-! ## Tag index and bitmap set operations (index.go)

Roaring bitmaps of series ids are modelled as `Finset ℕ`.  Because the Go
functions mutate bitmap objects in place, the heap of bitmap objects is
explicit: a list of bitmap values, with arguments passed as heap indices.
`Intersect`/`Union` clone their first argument into a fresh cell and fold
`And`/`Or` into that fresh cell only, so the embedding appends exactly one
cell. -/

/-- A heap of live bitmap objects. -/
abbrev BHeap := List (Finset ℕ)

/-- `Intersect(bitmaps...)`: empty input gives a fresh empty bitmap, a single
input is cloned, otherwise the clone of the first argument is intersected
in place with each remaining argument.  Returns the new heap and the index
of the freshly allocated result. -/
def Intersect (heap : BHeap) (args : List ℕ) : BHeap × ℕ :=
  match args with
  | [] => (heap ++ [∅], heap.length)
  | [i] => (heap ++ [heap.getD i ∅], heap.length)
  | i :: rest =>
    (heap ++ [rest.foldl (fun acc j => acc ∩ heap.getD j ∅) (heap.getD i ∅)], heap.length)

/-- `Union(bitmaps...)`: same shape as `Intersect`, with `Or` instead of `And`. -/
def Union (heap : BHeap) (args : List ℕ) : BHeap × ℕ :=
  match args with
  | [] => (heap ++ [∅], heap.length)
  | [i] => (heap ++ [heap.getD i ∅], heap.length)
  | i :: rest =>
    (heap ++ [rest.foldl (fun acc j => acc ∪ heap.getD j ∅) (heap.getD i ∅)], heap.length)

/-- The bitmap value an operation returned: the cell at its result index. -/
def bval (r : BHeap × ℕ) : Finset ℕ :=
  r.1.getD r.2 ∅

/-- State of a `TagIndex`: posting-key → bitmap, for the in-memory cache and
for the persisted copy (stored under `'i' | postingKey`; the prefix byte is
a bijective tag and is left implicit). -/
structure IdxState where
  cache : List (String × Finset ℕ)
  store : List (String × Finset ℕ)
deriving DecidableEq

/-- `formatTagKey`: empty tag key falls back to the bare metric key. -/
def formatTagKey (metric tagKey tagValue : String) : String :=
  if tagKey = "" then metric
  else metric ++ "#" ++ tagKey ++ ":" ++ tagValue

/-- `TagIndex.getBitmap`: cache hit, else load from the store (miss gives a
fresh empty bitmap), populating the cache. -/
def getBitmap (st : IdxState) (key : String) : Finset ℕ × IdxState :=
  match st.cache.lookup key with
  | some bm => (bm, st)
  | none =>
    match st.store.lookup key with
    | some bm => (bm, ⟨(key, bm) :: st.cache, st.store⟩)
    | none => (∅, ⟨(key, ∅) :: st.cache, st.store⟩)

/-- `TagIndex.GetSeriesIDs`. -/
def GetSeriesIDs (st : IdxState) (metric tagKey tagValue : String) : Finset ℕ × IdxState :=
  getBitmap st (formatTagKey metric tagKey tagValue)

/-- `TagIndex.GetAllSeriesIDs`. -/
def GetAllSeriesIDs (st : IdxState) (metric : String) : Finset ℕ × IdxState :=
  getBitmap st metric

/-! ## Filter DSL lexer and parser (filter.go)

The Go lexer walks a byte position through the input; the embedding passes
the remaining character list instead (position `p` becomes `input.drop p`).
The recursive-descent parser is embedded with an explicit fuel argument for
the `factor → '(' expr ')'` recursion and the `AND`/`OR` iteration.
`ParseFilter` supplies `6 * input.length + 6` fuel, which provably exceeds
the recursion depth on every input: every recursive descent first consumes
a non-EOF token from the remaining input, so the depth is bounded by three
levels per remaining-input weight unit (theorems `parse_consume` and
`parse_no_fuel` below prove the fuel-exhaustion branch unreachable at this
budget, and `ParseFilter_no_fuel_error` that `ParseFilter` never takes the
error path that is absent from the Go parser).  The fueled functions
therefore compute exactly what Go's unbounded recursion computes. -/

/-- `unicode.IsSpace` on the single input byte, as `skipWhitespace` tests it. -/
def isSpaceChar (c : Char) : Bool :=
  decide (c = ' ' ∨ c = '\t' ∨ c = '\n' ∨ c = '\r' ∨ c = '\x0b' ∨ c = '\x0c' ∨
    c = '\x85' ∨ c = '\xa0')

/-- `isIdentStart`. -/
def isIdentStart (c : Char) : Bool :=
  decide (('a' ≤ c ∧ c ≤ 'z') ∨ ('A' ≤ c ∧ c ≤ 'Z') ∨ c = '_' ∨ ('0' ≤ c ∧ c ≤ '9'))

/-- `isIdentChar`. -/
def isIdentChar (c : Char) : Bool :=
  isIdentStart c || decide (('0' ≤ c ∧ c ≤ '9') ∨ c = '-' ∨ c = '.')

/-- Token kinds of the lexer. -/
inductive tokenType
  | tokenEOF
  | tokenIdent
  | tokenColon
  | tokenAnd
  | tokenOr
  | tokenLParen
  | tokenRParen
deriving DecidableEq, Repr

/-- A lexer token. -/
structure token where
  typ : tokenType
  val : List Char
deriving DecidableEq, Repr

/-- `scanIdent`: read the maximal identifier run, classifying case-insensitive
`AND`/`OR` keywords. -/
def scanIdentTok (l : List Char) : token × List Char :=
  if (l.takeWhile isIdentChar).map Char.toUpper = ['A', 'N', 'D'] then
    (token.mk tokenType.tokenAnd (l.takeWhile isIdentChar), l.dropWhile isIdentChar)
  else if (l.takeWhile isIdentChar).map Char.toUpper = ['O', 'R'] then
    (token.mk tokenType.tokenOr (l.takeWhile isIdentChar), l.dropWhile isIdentChar)
  else (token.mk tokenType.tokenIdent (l.takeWhile isIdentChar), l.dropWhile isIdentChar)

/-- `lexer.next`: skip whitespace, emit `:`/`(`/`)`, scan identifiers, and
turn the end of input — or any unrecognized character, which it steps past —
into an EOF token. -/
def nextTok (l : List Char) : token × List Char :=
  match l.dropWhile isSpaceChar with
  | [] => (token.mk tokenType.tokenEOF [], [])
  | c :: rest =>
    if c = ':' then (token.mk tokenType.tokenColon [c], rest)
    else if c = '(' then (token.mk tokenType.tokenLParen [c], rest)
    else if c = ')' then (token.mk tokenType.tokenRParen [c], rest)
    else if isIdentStart c then scanIdentTok (c :: rest)
    else (token.mk tokenType.tokenEOF [], rest)

/-- The `Filter` AST: `TagFilter`, `AndFilter`, `OrFilter`. -/
inductive Filter
  | TagFilter (key value : String)
  | AndFilter (left right : Filter)
  | OrFilter (left right : Filter)
deriving DecidableEq, Repr

/-- Parser state: the current token and the unconsumed input. -/
structure PState where
  cur : token
  rest : List Char
deriving DecidableEq, Repr

/-- `parser.advance`. -/
def pAdvance (s : PState) : PState :=
  PState.mk (nextTok s.rest).1 (nextTok s.rest).2

/-- `newParser`: prime the current token. -/
def pInit (input : List Char) : PState :=
  PState.mk (nextTok input).1 (nextTok input).2

/-- `parser.parseTag`: `ident ':' ident`. -/
def parseTag (s : PState) : Except String (Filter × PState) :=
  if s.cur.typ = tokenType.tokenIdent then
    if (pAdvance s).cur.typ = tokenType.tokenColon then
      if (pAdvance (pAdvance s)).cur.typ = tokenType.tokenIdent then
        Except.ok (Filter.TagFilter (String.mk s.cur.val)
            (String.mk (pAdvance (pAdvance s)).cur.val),
          pAdvance (pAdvance (pAdvance s)))
      else Except.error "expected tag value"
    else Except.error "expected colon after tag key"
  else Except.error "expected tag key"

mutual

/-- `parser.parseExpr`: `term (OR term)*`. -/
def parseExpr : Nat → PState → Except String (Filter × PState)
  | 0, _ => Except.error "parser recursion limit"
  | n + 1, s =>
    match parseTerm n s with
    | Except.error e => Except.error e
    | Except.ok (left, s1) => parseExprLoop n left s1

/-- The `OR` iteration of `parseExpr`, folding left-associatively. -/
def parseExprLoop : Nat → Filter → PState → Except String (Filter × PState)
  | 0, _, _ => Except.error "parser recursion limit"
  | n + 1, left, s =>
    if s.cur.typ = tokenType.tokenOr then
      match parseTerm n (pAdvance s) with
      | Except.error e => Except.error e
      | Except.ok (right, s1) => parseExprLoop n (Filter.OrFilter left right) s1
    else Except.ok (left, s)

/-- `parser.parseTerm`: `factor (AND factor)*`. -/
def parseTerm : Nat → PState → Except String (Filter × PState)
  | 0, _ => Except.error "parser recursion limit"
  | n + 1, s =>
    match parseFactor n s with
    | Except.error e => Except.error e
    | Except.ok (left, s1) => parseTermLoop n left s1

/-- The `AND` iteration of `parseTerm`, folding left-associatively. -/
def parseTermLoop : Nat → Filter → PState → Except String (Filter × PState)
  | 0, _, _ => Except.error "parser recursion limit"
  | n + 1, left, s =>
    if s.cur.typ = tokenType.tokenAnd then
      match parseFactor n (pAdvance s) with
      | Except.error e => Except.error e
      | Except.ok (right, s1) => parseTermLoop n (Filter.AndFilter left right) s1
    else Except.ok (left, s)

/-- `parser.parseFactor`: `'(' expr ')' | tag`. -/
def parseFactor : Nat → PState → Except String (Filter × PState)
  | 0, _ => Except.error "parser recursion limit"
  | n + 1, s =>
    if s.cur.typ = tokenType.tokenLParen then
      match parseExpr n (pAdvance s) with
      | Except.error e => Except.error e
      | Except.ok (f, s1) =>
        if s1.cur.typ = tokenType.tokenRParen then Except.ok (f, pAdvance s1)
        else Except.error "expected right paren"
    else parseTag s

end

/-- `ParseFilter`: empty or all-whitespace input is "no filter"; otherwise
parse an expression and return its AST, ignoring any unconsumed input.  The
fuel `6 * input.length + 6` is never exhausted (`ParseFilter_no_fuel_error`),
so this is the Go function without any added error path. -/
def ParseFilter (input : List Char) : Except String (Option Filter) :=
  if input.all isSpaceChar then Except.ok none
  else
    match parseExpr (6 * input.length + 6) (pInit input) with
    | Except.ok (f, _) => Except.ok (some f)
    | Except.error e => Except.error e

/-- Termination weight of a parser state: the parser only recurses after
consuming a non-EOF current token, which always shrinks this weight. -/
def stWeight (s : PState) : Nat :=
  2 * s.rest.length + (if s.cur.typ = tokenType.tokenEOF then 0 else 1)

/-- A trailing extension that the lexer turns into an EOF token: optional
whitespace, then a character that is not whitespace, not an identifier
character and none of `:`/`(`/`)`, then arbitrary text. -/
def VExt (v : List Char) : Prop :=
  ∃ ws c r, v = ws ++ c :: r ∧ (∀ x ∈ ws, isSpaceChar x = true) ∧
    isSpaceChar c = false ∧ isIdentChar c = false ∧ c ≠ ':' ∧ c ≠ '(' ∧ c ≠ ')'

/-- Relates a parser state on input `u` with the corresponding state on input
`u ++ v`: non-EOF tokens agree exactly (with the extension still pending in
the unconsumed input), and EOF states correspond to EOF states. -/
def RelSt (v : List Char) (s s' : PState) : Prop :=
  (s.cur.typ ≠ tokenType.tokenEOF ∧ s'.cur = s.cur ∧ s'.rest = s.rest ++ v) ∨
  (s.cur.typ = tokenType.tokenEOF ∧ s'.cur.typ = tokenType.tokenEOF)

end Ktsdb

/-! # Theorems -/

namespace Ktsdb

theorem fromBE_beBytes8 (n : Nat) (h : n < 18446744073709551616) :
    fromBE (beBytes8 n) = n := by
  simp only [beBytes8, fromBE, List.length]
  norm_num
  omega

theorem beBytes8_length (n : Nat) : (beBytes8 n).length = 8 := rfl

theorem beBytes8_digits (n : Nat) : ∀ x ∈ beBytes8 n, x < 256 := by
  intro x hx
  simp only [beBytes8, List.mem_cons, List.not_mem_nil, or_false] at hx
  rcases hx with h | h | h | h | h | h | h | h <;> subst h <;> omega

theorem fromBE_lt (l : List Nat) (h : ∀ x ∈ l, x < 256) :
    fromBE l < 256 ^ l.length := by
  induction l with
  | nil => simp [fromBE]
  | cons b rest ih =>
    have hb : b < 256 := h b (List.mem_cons_self _ _)
    have hr := ih (fun x hx => h x (List.mem_cons_of_mem _ hx))
    simp only [fromBE, List.length_cons, pow_succ]
    calc b * 256 ^ rest.length + fromBE rest
        < b * 256 ^ rest.length + 256 ^ rest.length := by omega
      _ = (b + 1) * 256 ^ rest.length := by ring
      _ ≤ 256 * 256 ^ rest.length := by
          have : b + 1 ≤ 256 := hb
          exact Nat.mul_le_mul_right _ this
      _ = 256 ^ rest.length * 256 := by ring

theorem lexLtB_iff_fromBE (as bs : List Nat) (hlen : as.length = bs.length)
    (ha : ∀ x ∈ as, x < 256) (hb : ∀ x ∈ bs, x < 256) :
    lexLtB as bs = true ↔ fromBE as < fromBE bs := by
  induction as generalizing bs with
  | nil =>
    cases bs with
    | nil => simp [lexLtB, fromBE]
    | cons b bs' => simp at hlen
  | cons a as' ih =>
    cases bs with
    | nil => simp at hlen
    | cons b bs' =>
      simp only [List.length_cons, Nat.succ_inj] at hlen
      have ha' : ∀ x ∈ as', x < 256 := fun x hx => ha x (List.mem_cons_of_mem _ hx)
      have hb' : ∀ x ∈ bs', x < 256 := fun x hx => hb x (List.mem_cons_of_mem _ hx)
      have haa : a < 256 := ha a (List.mem_cons_self _ _)
      have hbb : b < 256 := hb b (List.mem_cons_self _ _)
      have hfa : fromBE as' < 256 ^ as'.length := fromBE_lt as' ha'
      have hfb : fromBE bs' < 256 ^ bs'.length := fromBE_lt bs' hb'
      simp only [lexLtB, fromBE, hlen]
      by_cases hab : a < b
      · simp only [if_pos hab, true_iff]
        calc a * 256 ^ bs'.length + fromBE as'
            < a * 256 ^ bs'.length + 256 ^ bs'.length := by rw [← hlen]; omega
          _ = (a + 1) * 256 ^ bs'.length := by ring
          _ ≤ b * 256 ^ bs'.length := Nat.mul_le_mul_right _ hab
          _ ≤ b * 256 ^ bs'.length + fromBE bs' := Nat.le_add_right _ _
      · by_cases hba : b < a
        · simp only [if_neg hab, if_pos hba]
          have hgt : b * 256 ^ bs'.length + fromBE bs' < a * 256 ^ bs'.length + fromBE as' := by
            calc b * 256 ^ bs'.length + fromBE bs'
                < b * 256 ^ bs'.length + 256 ^ bs'.length := by omega
              _ = (b + 1) * 256 ^ bs'.length := by ring
              _ ≤ a * 256 ^ bs'.length := Nat.mul_le_mul_right _ hba
              _ ≤ a * 256 ^ bs'.length + fromBE as' := Nat.le_add_right _ _
          constructor
          · intro hfalse; cases hfalse
          · intro hcon; exact absurd hcon (not_lt.mpr (le_of_lt hgt))
        · have hab' : a = b := by omega
          subst hab'
          simp only [if_neg hab, if_neg hba]
          rw [ih bs' hlen ha' hb']
          omega

theorem lexLtB_append (p as bs : List Nat) :
    lexLtB (p ++ as) (p ++ bs) = lexLtB as bs := by
  induction p with
  | nil => rfl
  | cons x p' ih =>
    have h : lexLtB ((x :: p') ++ as) ((x :: p') ++ bs)
        = if x < x then true else if x < x then false else lexLtB (p' ++ as) (p' ++ bs) := rfl
    rw [h, if_neg (lt_irrefl x), if_neg (lt_irrefl x), ih]

theorem complTs_lt (ts : Int) : complTs ts < 18446744073709551616 := by
  unfold complTs; omega

/-- C1 counterexample input: `id = 0`, `ts1 = 0 > ts2 = -1`, yet the encoded key
for `ts1` is lexicographically greater, not less. -/
theorem c1_counterexample :
    (0 : Int) > (-1 : Int) ∧
    lexLtB (EncodeDataKey 0 0) (EncodeDataKey 0 (-1)) = false ∧
    lexLtB (EncodeDataKey 0 (-1)) (EncodeDataKey 0 0) = true := by
  refine ⟨by norm_num, ?_, ?_⟩ <;> decide

/-- C1 (amended): for a fixed series id, the data key for the larger timestamp
is lexicographically strictly smaller, provided both timestamps lie in the
signed 64-bit range and have the same sign (both non-negative or both
negative); mixed-sign pairs violate the order, as the complement of a
negative timestamp is a small unsigned word. -/
theorem c1_encodeDataKey_descending (id : Nat) (ts1 ts2 : Int)
    (hlo : -9223372036854775808 ≤ ts2) (hhi : ts1 < 9223372036854775808)
    (hlt : ts2 < ts1) (hsign : 0 ≤ ts2 ∨ ts1 < 0) :
    lexLtB (EncodeDataKey id ts1) (EncodeDataKey id ts2) = true := by
  have hkey : complTs ts1 < complTs ts2 := by
    unfold complTs
    rcases hsign with h | h <;> omega
  have h1 : EncodeDataKey id ts1 = (100 :: beBytes8 id) ++ beBytes8 (complTs ts1) := by
    simp [EncodeDataKey]
  have h2 : EncodeDataKey id ts2 = (100 :: beBytes8 id) ++ beBytes8 (complTs ts2) := by
    simp [EncodeDataKey]
  rw [h1, h2, lexLtB_append]
  rw [lexLtB_iff_fromBE _ _ (by rw [beBytes8_length, beBytes8_length])
        (beBytes8_digits _) (beBytes8_digits _)]
  rw [fromBE_beBytes8 _ (complTs_lt ts1), fromBE_beBytes8 _ (complTs_lt ts2)]
  exact hkey

/-- C1 amended claim, applied at `id = 3`, `ts1 = 5 > ts2 = 2`. -/
theorem c1_witness :
    (-9223372036854775808 ≤ (2 : Int)) ∧ ((5 : Int) < 9223372036854775808) ∧
    ((2 : Int) < 5) ∧
    lexLtB (EncodeDataKey 3 5) (EncodeDataKey 3 2) = true :=
  ⟨by norm_num, by norm_num, by norm_num,
   c1_encodeDataKey_descending 3 5 2 (by norm_num) (by norm_num) (by norm_num)
     (Or.inl (by norm_num))⟩

/-- C4: `DecodeDataKey (EncodeDataKey id ts) = (id, ts)` for every series id in
the u64 range and every timestamp in the i64 range. -/
theorem c4_decode_encode_roundtrip (id : Nat) (ts : Int)
    (hid : id < 18446744073709551616)
    (hlo : -9223372036854775808 ≤ ts) (hhi : ts < 9223372036854775808) :
    DecodeDataKey (EncodeDataKey id ts) = (id, ts) := by
  have hct := complTs_lt ts
  have hdrop1 : ((EncodeDataKey id ts).drop 1).take 8 = beBytes8 id := by
    simp [EncodeDataKey, beBytes8]
  have hdrop9 : ((EncodeDataKey id ts).drop 9).take 8 = beBytes8 (complTs ts) := by
    simp [EncodeDataKey, beBytes8]
  unfold DecodeDataKey
  rw [hdrop1, hdrop9, fromBE_beBytes8 id hid, fromBE_beBytes8 _ hct]
  refine Prod.ext rfl ?_
  simp only
  unfold complTs i64ofNat
  split <;> omega

theorem queryLoop_structure (opts : QueryOptions) (entries : List (Int × ℚ)) :
    ∀ acc : List DataPoint, ∃ l,
      queryLoop opts entries acc = acc.reverse ++ l ∧
      List.Sublist l (entries.map (fun e => DataPoint.mk e.1 e.2)) ∧
      ∀ p ∈ l, (0 < opts.Start → opts.Start ≤ p.Timestamp) ∧
               (0 < opts.End → p.Timestamp ≤ opts.End) := by
  induction entries with
  | nil =>
    intro acc
    exact ⟨[], by simp [queryLoop], List.nil_sublist _, by simp⟩
  | cons e rest ih =>
    intro acc
    obtain ⟨ts, v⟩ := e
    by_cases h1 : 0 < opts.Start ∧ ts < opts.Start
    · refine ⟨[], ?_, List.nil_sublist _, by simp⟩
      simp [queryLoop, h1]
    · by_cases h2 : 0 < opts.End ∧ opts.End < ts
      · obtain ⟨l, hl, hs, hb⟩ := ih acc
        refine ⟨l, ?_, hs.cons _, hb⟩
        simp only [queryLoop, if_neg h1, if_pos h2]
        exact hl
      · by_cases h3 : 0 < opts.Limit ∧ opts.Limit ≤ ((DataPoint.mk ts v :: acc).length : Int)
        · refine ⟨[DataPoint.mk ts v], ?_, ?_, ?_⟩
          · simp only [queryLoop, if_neg h1, if_neg h2, if_pos h3]
            simp
          · exact List.singleton_sublist.mpr (List.mem_cons_self _ _)
          · intro p hp
            rw [List.mem_singleton] at hp
            subst hp
            push_neg at h1 h2
            exact ⟨fun hst => h1 hst, fun hen => h2 hen⟩
        · obtain ⟨l, hl, hs, hb⟩ := ih (DataPoint.mk ts v :: acc)
          refine ⟨DataPoint.mk ts v :: l, ?_, hs.cons₂ _, ?_⟩
          · simp only [queryLoop, if_neg h1, if_neg h2, if_neg h3]
            rw [hl]
            simp
          · intro p hp
            rcases List.mem_cons.mp hp with hp | hp
            · subst hp
              push_neg at h1 h2
              exact ⟨fun hst => h1 hst, fun hen => h2 hen⟩
            · exact hb p hp

theorem queryLoop_length (opts : QueryOptions) (entries : List (Int × ℚ)) :
    ∀ acc : List DataPoint, 0 < opts.Limit → (acc.length : Int) < opts.Limit →
      ((queryLoop opts entries acc).length : Int) ≤ opts.Limit := by
  induction entries with
  | nil =>
    intro acc hpos hlt
    simp only [queryLoop, List.length_reverse]
    omega
  | cons e rest ih =>
    intro acc hpos hlt
    obtain ⟨ts, v⟩ := e
    by_cases h1 : 0 < opts.Start ∧ ts < opts.Start
    · simp only [queryLoop, if_pos h1, List.length_reverse]
      omega
    · by_cases h2 : 0 < opts.End ∧ opts.End < ts
      · simp only [queryLoop, if_neg h1, if_pos h2]
        exact ih acc hpos hlt
      · by_cases h3 : 0 < opts.Limit ∧ opts.Limit ≤ ((DataPoint.mk ts v :: acc).length : Int)
        · simp only [queryLoop, if_neg h1, if_neg h2, if_pos h3]
          simp only [List.length_reverse, List.length_cons]
          omega
        · simp only [queryLoop, if_neg h1, if_neg h2, if_neg h3]
          apply ih _ hpos
          push_neg at h3
          have h4 := h3 hpos
          simp only [List.length_cons] at h4
          simp only [List.length_cons]
          omega

/-- C3 counterexample input: a legal per-series store holding timestamps `-2`
and `5` (in Badger key order the complemented negative timestamp sorts first),
queried with `start = end = -1` (non-zero bounds) and no limit.  The result is
`[(-2, 1), (5, 2)]`: not in descending timestamp order, containing a timestamp
below the non-zero start bound and a timestamp above the non-zero end bound. -/
theorem c3_counterexample :
    StoreWF [((-2 : Int), (1 : ℚ)), (5, 2)] ∧
    dbQuery [((-2 : Int), (1 : ℚ)), (5, 2)] (QueryOptions.mk (-1) (-1) 0) =
      [DataPoint.mk (-2) 1, DataPoint.mk 5 2] ∧
    ¬ List.Pairwise (fun p q => q.Timestamp < p.Timestamp)
        (dbQuery [((-2 : Int), (1 : ℚ)), (5, 2)] (QueryOptions.mk (-1) (-1) 0)) ∧
    ((-1 : Int) ≠ 0 ∧
      ∃ p ∈ dbQuery [((-2 : Int), (1 : ℚ)), (5, 2)] (QueryOptions.mk (-1) (-1) 0),
        p.Timestamp < -1) ∧
    ((-1 : Int) ≠ 0 ∧
      ∃ p ∈ dbQuery [((-2 : Int), (1 : ℚ)), (5, 2)] (QueryOptions.mk (-1) (-1) 0),
        (-1 : Int) < p.Timestamp) := by
  refine ⟨by decide, by decide, by decide, ⟨by decide, ?_⟩, ⟨by decide, ?_⟩⟩
  · exact ⟨DataPoint.mk (-2) 1, by decide, by decide⟩
  · exact ⟨DataPoint.mk 5 2, by decide, by decide⟩

/-- C3 (amended): on a well-formed per-series store, `Database.Query` returns
points in strictly descending timestamp order provided every stored timestamp
is non-negative (with negative timestamps the complement encoding breaks the
order); every returned timestamp is at least `Start` when `Start` is positive
and at most `End` when `End` is positive (negative non-zero bounds are treated
as unbounded by the code); and the number of returned points never exceeds
`Limit` when `Limit` is positive. -/
theorem c3_query_spec (store : List (Int × ℚ)) (opts : QueryOptions)
    (hwf : StoreWF store) :
    ((∀ p ∈ store, 0 ≤ p.1 ∧ p.1 < 9223372036854775808) →
      (dbQuery store opts).Pairwise (fun p q => q.Timestamp < p.Timestamp)) ∧
    (0 < opts.Start → ∀ p ∈ dbQuery store opts, opts.Start ≤ p.Timestamp) ∧
    (0 < opts.End → ∀ p ∈ dbQuery store opts, p.Timestamp ≤ opts.End) ∧
    (0 < opts.Limit → ((dbQuery store opts).length : Int) ≤ opts.Limit) := by
  have hent : List.Sublist
      (if 0 < opts.End then store.dropWhile (fun e => decide (negKey e.1 < negKey opts.End))
       else store) store := by
    split
    · exact List.dropWhile_sublist _
    · exact List.Sublist.refl _
  set entries :=
    if 0 < opts.End then store.dropWhile (fun e => decide (negKey e.1 < negKey opts.End))
    else store with hentries
  have hq : dbQuery store opts = queryLoop opts entries [] := rfl
  obtain ⟨l, hl, hs, hb⟩ := queryLoop_structure opts entries []
  have hres : dbQuery store opts = l := by rw [hq, hl]; simp
  refine ⟨?_, ?_, ?_, ?_⟩
  · intro hts
    have hpair : entries.Pairwise (fun a b => negKey a.1 < negKey b.1) := hwf.sublist hent
    have hdesc : (entries.map (fun e => DataPoint.mk e.1 e.2)).Pairwise
        (fun p q => q.Timestamp < p.Timestamp) := by
      rw [List.pairwise_map]
      apply hpair.imp_of_mem
      intro a b ha hb' hR
      have h1 := hts a (hent.mem ha)
      have h2 := hts b (hent.mem hb')
      show b.1 < a.1
      unfold negKey at hR
      omega
    rw [hres]
    exact hdesc.sublist hs
  · intro hst p hp
    rw [hres] at hp
    exact (hb p hp).1 hst
  · intro hen p hp
    rw [hres] at hp
    exact (hb p hp).2 hen
  · intro hlim
    rw [hq]
    exact queryLoop_length opts entries [] hlim (by simp; omega)

/-- C3 amended claim, applied to the store `[(5, 2), (3, 1)]` (newest first in
key order) with options `start = 4, end = 0, limit = 0`. -/
theorem c3_witness :
    StoreWF [((5 : Int), (2 : ℚ)), (3, 1)] ∧
    (0 < (4 : Int) → ∀ p ∈ dbQuery [((5 : Int), (2 : ℚ)), (3, 1)] (QueryOptions.mk 4 0 0),
      (4 : Int) ≤ p.Timestamp) :=
  ⟨by decide, (c3_query_spec [((5 : Int), (2 : ℚ)), (3, 1)] (QueryOptions.mk 4 0 0)
    (by decide)).2.1⟩

/-- C4 applied at the extremes: maximal series id and minimal timestamp. -/
theorem c4_witness :
    (18446744073709551615 < 18446744073709551616) ∧
    DecodeDataKey (EncodeDataKey 18446744073709551615 (-9223372036854775808)) =
      (18446744073709551615, -9223372036854775808) :=
  ⟨by norm_num,
   c4_decode_encode_roundtrip 18446744073709551615 (-9223372036854775808)
     (by norm_num) (by norm_num) (by norm_num)⟩

theorem keys_updateAssoc (m : List (Int × Accumulator)) (key : Int) (v : ℚ) :
    (updateAssoc m key v).map Prod.fst =
      if key ∈ m.map Prod.fst then m.map Prod.fst else m.map Prod.fst ++ [key] := by
  induction m with
  | nil => simp [updateAssoc]
  | cons pair rest ih =>
    obtain ⟨k0, a0⟩ := pair
    by_cases h : k0 = key
    · subst h
      simp [updateAssoc]
    · simp only [updateAssoc, if_neg h, List.map_cons, ih]
      have hne : key ≠ k0 := Ne.symm h
      by_cases hk : key ∈ rest.map Prod.fst
      · simp [List.mem_cons, hk, hne]
      · simp [List.mem_cons, hk, hne]

theorem keys_foldBuckets (sz : Int) (pts : List DataPoint) :
    ∀ (m : List (Int × Accumulator)) (k : Int),
      k ∈ (pts.foldl
        (fun m p => updateAssoc m (bucketKey p.Timestamp sz) p.Value) m).map Prod.fst ↔
      k ∈ m.map Prod.fst ∨ ∃ p ∈ pts, k = bucketKey p.Timestamp sz := by
  induction pts with
  | nil => intro m k; simp
  | cons p rest ih =>
    intro m k
    simp only [List.foldl_cons]
    rw [ih, keys_updateAssoc]
    by_cases hk : bucketKey p.Timestamp sz ∈ m.map Prod.fst
    · rw [if_pos hk]
      constructor
      · rintro (h1 | ⟨q, hq, hkq⟩)
        · exact Or.inl h1
        · exact Or.inr ⟨q, List.mem_cons_of_mem _ hq, hkq⟩
      · rintro (h1 | ⟨q, hq, hkq⟩)
        · exact Or.inl h1
        · rcases List.mem_cons.mp hq with rfl | hq'
          · rw [hkq]; exact Or.inl hk
          · exact Or.inr ⟨q, hq', hkq⟩
    · rw [if_neg hk]
      constructor
      · rintro (h1 | ⟨q, hq, hkq⟩)
        · rcases List.mem_append.mp h1 with h2 | h2
          · exact Or.inl h2
          · exact Or.inr ⟨p, List.mem_cons_self _ _, List.mem_singleton.mp h2⟩
        · exact Or.inr ⟨q, List.mem_cons_of_mem _ hq, hkq⟩
      · rintro (h1 | ⟨q, hq, hkq⟩)
        · exact Or.inl (List.mem_append.mpr (Or.inl h1))
        · rcases List.mem_cons.mp hq with rfl | hq'
          · exact Or.inl (List.mem_append.mpr (Or.inr (List.mem_singleton.mpr hkq)))
          · exact Or.inr ⟨q, hq', hkq⟩

theorem mem_keys_buildBuckets (pts : List DataPoint) (sz : Int) (k : Int) :
    k ∈ (buildBuckets pts sz).map Prod.fst ↔ ∃ p ∈ pts, k = bucketKey p.Timestamp sz := by
  rw [buildBuckets, keys_foldBuckets]
  simp

theorem mem_insertByTs (b c : Bucket) (l : List Bucket) :
    c ∈ insertByTs b l ↔ c = b ∨ c ∈ l := by
  induction l with
  | nil => simp [insertByTs]
  | cons d rest ih =>
    by_cases h : b.Timestamp ≤ d.Timestamp
    · simp [insertByTs, h]
    · simp only [insertByTs, if_neg h, List.mem_cons, ih]
      tauto

theorem mem_sortBuckets (l : List Bucket) (b : Bucket) :
    b ∈ sortBuckets l ↔ b ∈ l := by
  induction l with
  | nil => simp [sortBuckets]
  | cons c rest ih =>
    simp only [sortBuckets, mem_insertByTs, List.mem_cons, ih]

/-- C2 counterexample input: the single point at timestamp `-1` with
`bucketSize = 1000`.  The code assigns it to bucket `0` (truncating division),
while `floor(-1 / 1000) * 1000 = -1000`. -/
theorem c2_counterexample :
    Aggregate [DataPoint.mk (-1) 5] (AggregateOptions.mk .AggAvg 1000) =
      [Bucket.mk 0 5 1] ∧
    Int.fdiv (-1) 1000 * 1000 = -1000 ∧ ((0 : Int) ≠ -1000) := by
  refine ⟨?_, rfl, by norm_num⟩
  have hkey : bucketKey (-1) 1000 = 0 := rfl
  norm_num [Aggregate, buildBuckets, updateAssoc, sortBuckets, insertByTs,
    Accumulator.init, Accumulator.add, Accumulator.compute, hkey]

/-- C2 (amended): for `bucketSize > 0`, `Aggregate` assigns every point to the
bucket whose key is `trunc(ts / bucketSize) * bucketSize` (Go's truncating
int64 division, `Int.tdiv`): each output bucket timestamp is the truncated
key of some input point, each input point has an output bucket with its
truncated key, and for non-negative timestamps the truncated key coincides
with `floor(ts / bucketSize) * bucketSize`; for negative timestamps it is the
truncation and not the floor. -/
theorem c2_aggregate_bucket_assignment (points : List DataPoint) (opts : AggregateOptions)
    (hsz : 0 < opts.BucketSize) :
    (∀ b ∈ Aggregate points opts,
      ∃ p ∈ points, b.Timestamp = bucketKey p.Timestamp opts.BucketSize) ∧
    (∀ p ∈ points,
      ∃ b ∈ Aggregate points opts, b.Timestamp = bucketKey p.Timestamp opts.BucketSize) ∧
    (∀ ts : Int, 0 ≤ ts →
      bucketKey ts opts.BucketSize = Int.fdiv ts opts.BucketSize * opts.BucketSize) := by
  refine ⟨?_, ?_, ?_⟩
  · intro b hb
    unfold Aggregate at hb
    split at hb
    · cases hb
    · rw [mem_sortBuckets, List.mem_map] at hb
      obtain ⟨ka, hka, hmk⟩ := hb
      have hkey : ka.1 ∈ (buildBuckets points opts.BucketSize).map Prod.fst :=
        List.mem_map_of_mem _ hka
      rw [mem_keys_buildBuckets] at hkey
      obtain ⟨p, hp, hk⟩ := hkey
      exact ⟨p, hp, by rw [← hmk]; exact hk⟩
  · intro p hp
    have hne : ¬(points.isEmpty ∨ opts.BucketSize ≤ 0) := by
      rcases points with _ | ⟨q, qs⟩
      · cases hp
      · simp only [List.isEmpty_cons, Bool.false_eq_true, false_or, not_le]
        exact hsz
    have hkey : bucketKey p.Timestamp opts.BucketSize ∈
        (buildBuckets points opts.BucketSize).map Prod.fst := by
      rw [mem_keys_buildBuckets]
      exact ⟨p, hp, rfl⟩
    rw [List.mem_map] at hkey
    obtain ⟨ka, hka, hfst⟩ := hkey
    refine ⟨Bucket.mk ka.1 (ka.2.compute opts.Func) ka.2.count, ?_, hfst⟩
    unfold Aggregate
    rw [if_neg hne, mem_sortBuckets, List.mem_map]
    exact ⟨ka, hka, rfl⟩
  · intro ts hts
    unfold bucketKey
    rw [Int.tdiv_eq_ediv hts (le_of_lt hsz), Int.fdiv_eq_ediv _ (le_of_lt hsz)]

/-- C2 amended claim, applied to the single point at timestamp `2500` with
`bucketSize = 1000` and SUM aggregation. -/
theorem c2_witness :
    (0 : Int) < 1000 ∧
    (∀ b ∈ Aggregate [DataPoint.mk 2500 4] (AggregateOptions.mk .AggSum 1000),
      ∃ p ∈ [DataPoint.mk 2500 4], b.Timestamp = bucketKey p.Timestamp 1000) :=
  ⟨by norm_num,
   (c2_aggregate_bucket_assignment [DataPoint.mk 2500 4]
     (AggregateOptions.mk .AggSum 1000) (by norm_num)).1⟩

/-- C8: aggregating `[(1000,10),(1500,20),(2000,30),(2500,40)]` with
`bucketSize = 2000` yields exactly the buckets `0` and `2000` in ascending
order, with values `(15, 35)` under AVG, `(30, 70)` under SUM and `(2, 2)`
under COUNT. -/
theorem c8_aggregate_literal :
    Aggregate [DataPoint.mk 1000 10, DataPoint.mk 1500 20,
               DataPoint.mk 2000 30, DataPoint.mk 2500 40]
        (AggregateOptions.mk .AggAvg 2000) =
      [Bucket.mk 0 15 2, Bucket.mk 2000 35 2] ∧
    Aggregate [DataPoint.mk 1000 10, DataPoint.mk 1500 20,
               DataPoint.mk 2000 30, DataPoint.mk 2500 40]
        (AggregateOptions.mk .AggSum 2000) =
      [Bucket.mk 0 30 2, Bucket.mk 2000 70 2] ∧
    Aggregate [DataPoint.mk 1000 10, DataPoint.mk 1500 20,
               DataPoint.mk 2000 30, DataPoint.mk 2500 40]
        (AggregateOptions.mk .AggCount 2000) =
      [Bucket.mk 0 2 2, Bucket.mk 2000 2 2] := by
  refine ⟨?_, ?_, ?_⟩ <;>
    norm_num [Aggregate, buildBuckets, updateAssoc, bucketKey, sortBuckets, insertByTs,
      Accumulator.init, Accumulator.add, Accumulator.compute, Int.tdiv]

/-- C6: in a state where the series is absent from cache and store, the first
`GetOrCreate` writes the `SeriesMeta` record and reports `created = true`; a
subsequent `GetOrCreate` with the same metric and the same canonical tagset
returns the same id with `created = false` and leaves the state untouched;
and in any state the meta record is written iff `created = true`. -/
theorem c6_getOrCreate_spec (hash : String → List Tag → Nat) (m : String)
    (t t2 : List Tag) (st : RegState)
    (hc : hash m (sortTags t) ∉ st.cache)
    (hs : st.store.lookup (hash m (sortTags t)) = none)
    (hsame : sortTags t2 = sortTags t) :
    (GetOrCreate hash m t st).2.1 = true ∧
    (GetOrCreate hash m t st).2.2.store.lookup (hash m (sortTags t)) =
      some (SeriesMeta.mk m (sortTags t)) ∧
    GetOrCreate hash m t2 (GetOrCreate hash m t st).2.2 =
      ((GetOrCreate hash m t st).1, false, (GetOrCreate hash m t st).2.2) ∧
    ∀ (m' : String) (t' : List Tag) (st' : RegState),
      ((GetOrCreate hash m' t' st').2.1 = true →
        (GetOrCreate hash m' t' st').2.2.store =
          (hash m' (sortTags t'), SeriesMeta.mk m' (sortTags t')) :: st'.store) ∧
      ((GetOrCreate hash m' t' st').2.1 = false →
        (GetOrCreate hash m' t' st').2.2.store = st'.store) := by
  have h1 : GetOrCreate hash m t st =
      (hash m (sortTags t), true,
        RegState.mk (hash m (sortTags t) :: st.cache)
          ((hash m (sortTags t), SeriesMeta.mk m (sortTags t)) :: st.store)) := by
    unfold GetOrCreate
    simp only [if_neg hc, hs]
  refine ⟨by rw [h1], ?_, ?_, ?_⟩
  · rw [h1]
    simp [List.lookup]
  · rw [h1]
    unfold GetOrCreate
    simp only [hsame]
    rw [if_pos (List.mem_cons_self _ _)]
  · intro m' t' st'
    unfold GetOrCreate
    by_cases hmem : hash m' (sortTags t') ∈ st'.cache
    · simp only [if_pos hmem]
      simp
    · rw [if_neg hmem]
      cases hlook : st'.store.lookup (hash m' (sortTags t')) with
      | some meta => simp
      | none => simp

/-- C6 applied with the constant hash `7`, metric `cpu`, one tag, and the
empty initial state. -/
theorem c6_witness :
    ((7 : Nat) ∉ ([] : List Nat)) ∧
    (GetOrCreate (fun _ _ => 7) "cpu" [Tag.mk "env" "prod"] (RegState.mk [] [])).2.1
      = true :=
  ⟨by decide,
   (c6_getOrCreate_spec (fun _ _ => 7) "cpu" [Tag.mk "env" "prod"] [Tag.mk "env" "prod"]
     (RegState.mk [] []) (by decide) rfl rfl).1⟩

theorem getD_append_len (l : BHeap) (x : Finset ℕ) :
    (l ++ [x]).getD l.length ∅ = x := by
  induction l with
  | nil => rfl
  | cons a rest ih =>
    simp only [List.cons_append, List.length_cons, List.getD_cons_succ]
    exact ih

theorem getD_append_lt (l : BHeap) (x : Finset ℕ) (c : ℕ) (hc : c < l.length) :
    (l ++ [x]).getD c ∅ = l.getD c ∅ := by
  induction l generalizing c with
  | nil => cases hc
  | cons a rest ih =>
    cases c with
    | zero => rfl
    | succ c' =>
      simp only [List.cons_append, List.getD_cons_succ]
      exact ih c' (by simpa using hc)

theorem Intersect_fst (heap : BHeap) (args : List ℕ) :
    ∃ x, (Intersect heap args).1 = heap ++ [x] ∧ (Intersect heap args).2 = heap.length := by
  rcases args with _ | ⟨i, _ | ⟨j, rest⟩⟩
  · exact ⟨∅, rfl, rfl⟩
  · exact ⟨heap.getD i ∅, rfl, rfl⟩
  · exact ⟨_, rfl, rfl⟩

theorem Union_fst (heap : BHeap) (args : List ℕ) :
    ∃ x, (Union heap args).1 = heap ++ [x] ∧ (Union heap args).2 = heap.length := by
  rcases args with _ | ⟨i, _ | ⟨j, rest⟩⟩
  · exact ⟨∅, rfl, rfl⟩
  · exact ⟨heap.getD i ∅, rfl, rfl⟩
  · exact ⟨_, rfl, rfl⟩

theorem bval_Intersect_two (heap : BHeap) (a b : ℕ) :
    bval (Intersect heap [a, b]) = heap.getD a ∅ ∩ heap.getD b ∅ := by
  unfold Intersect bval
  simp only [List.foldl_cons, List.foldl_nil]
  exact getD_append_len _ _

theorem bval_Union_two (heap : BHeap) (a b : ℕ) :
    bval (Union heap [a, b]) = heap.getD a ∅ ∪ heap.getD b ∅ := by
  unfold Union bval
  simp only [List.foldl_cons, List.foldl_nil]
  exact getD_append_len _ _

/-- C7: `Intersect`/`Union` are commutative and associative on the bitmap
values they produce, never mutate any pre-existing bitmap cell, return a
fresh empty bitmap for no arguments, and return a fresh clone for a single
argument. -/
theorem c7_bitmap_ops (heap : BHeap) (i j k : ℕ)
    (hi : i < heap.length) (hj : j < heap.length) (hk : k < heap.length) :
    bval (Intersect heap [i, j]) = bval (Intersect heap [j, i]) ∧
    bval (Union heap [i, j]) = bval (Union heap [j, i]) ∧
    bval (Intersect (Intersect heap [i, j]).1 [(Intersect heap [i, j]).2, k]) =
      bval (Intersect (Intersect heap [j, k]).1 [i, (Intersect heap [j, k]).2]) ∧
    bval (Union (Union heap [i, j]).1 [(Union heap [i, j]).2, k]) =
      bval (Union (Union heap [j, k]).1 [i, (Union heap [j, k]).2]) ∧
    (∀ (args : List ℕ) (c : ℕ), c < heap.length →
      (Intersect heap args).1.getD c ∅ = heap.getD c ∅ ∧
      (Union heap args).1.getD c ∅ = heap.getD c ∅) ∧
    (bval (Intersect heap []) = ∅ ∧ bval (Union heap []) = ∅) ∧
    (bval (Intersect heap [i]) = heap.getD i ∅ ∧ (Intersect heap [i]).2 = heap.length ∧
     bval (Union heap [i]) = heap.getD i ∅ ∧ (Union heap [i]).2 = heap.length) := by
  refine ⟨?_, ?_, ?_, ?_, ?_, ⟨?_, ?_⟩, ⟨?_, rfl, ?_, rfl⟩⟩
  · rw [bval_Intersect_two, bval_Intersect_two, Finset.inter_comm]
  · rw [bval_Union_two, bval_Union_two, Finset.union_comm]
  · have hfst1 : (Intersect heap [i, j]).1 = heap ++ [heap.getD i ∅ ∩ heap.getD j ∅] := by
      unfold Intersect
      simp only [List.foldl_cons, List.foldl_nil]
    have hfst2 : (Intersect heap [j, k]).1 = heap ++ [heap.getD j ∅ ∩ heap.getD k ∅] := by
      unfold Intersect
      simp only [List.foldl_cons, List.foldl_nil]
    have hsnd1 : (Intersect heap [i, j]).2 = heap.length := rfl
    have hsnd2 : (Intersect heap [j, k]).2 = heap.length := rfl
    rw [bval_Intersect_two, bval_Intersect_two, hfst1, hfst2, hsnd1, hsnd2,
      getD_append_len, getD_append_len, getD_append_lt _ _ _ hk, getD_append_lt _ _ _ hi]
    exact Finset.inter_assoc _ _ _
  · have hfst1 : (Union heap [i, j]).1 = heap ++ [heap.getD i ∅ ∪ heap.getD j ∅] := by
      unfold Union
      simp only [List.foldl_cons, List.foldl_nil]
    have hfst2 : (Union heap [j, k]).1 = heap ++ [heap.getD j ∅ ∪ heap.getD k ∅] := by
      unfold Union
      simp only [List.foldl_cons, List.foldl_nil]
    have hsnd1 : (Union heap [i, j]).2 = heap.length := rfl
    have hsnd2 : (Union heap [j, k]).2 = heap.length := rfl
    rw [bval_Union_two, bval_Union_two, hfst1, hfst2, hsnd1, hsnd2,
      getD_append_len, getD_append_len, getD_append_lt _ _ _ hk, getD_append_lt _ _ _ hi]
    exact Finset.union_assoc _ _ _
  · intro args c hcl
    obtain ⟨x, hx, _⟩ := Intersect_fst heap args
    obtain ⟨y, hy, _⟩ := Union_fst heap args
    rw [hx, hy]
    exact ⟨getD_append_lt _ _ _ hcl, getD_append_lt _ _ _ hcl⟩
  · unfold Intersect bval
    exact getD_append_len _ _
  · unfold Union bval
    exact getD_append_len _ _
  · unfold Intersect bval
    exact getD_append_len _ _
  · unfold Union bval
    exact getD_append_len _ _

/-- C7 applied to the concrete three-cell heap `[{1,2}, {2,3}, {2,4}]`. -/
theorem c7_witness :
    ((0 : ℕ) < 3) ∧
    bval (Intersect [({1, 2} : Finset ℕ), {2, 3}, {2, 4}] [0, 1]) =
      bval (Intersect [({1, 2} : Finset ℕ), {2, 3}, {2, 4}] [1, 0]) :=
  ⟨by norm_num,
   (c7_bitmap_ops [({1, 2} : Finset ℕ), {2, 3}, {2, 4}] 0 1 2
     (by norm_num) (by norm_num) (by norm_num)).1⟩

/-- C5: AND binds tighter than OR, and both operators associate to the left,
on the spec's two example inputs. -/
theorem c5_parser_precedence :
    ParseFilter "env:prod OR env:dev AND host:h1".toList =
      Except.ok (some (Filter.OrFilter (Filter.TagFilter "env" "prod")
        (Filter.AndFilter (Filter.TagFilter "env" "dev")
          (Filter.TagFilter "host" "h1")))) ∧
    ParseFilter "a:1 AND b:2 AND c:3".toList =
      Except.ok (some (Filter.AndFilter
        (Filter.AndFilter (Filter.TagFilter "a" "1") (Filter.TagFilter "b" "2"))
        (Filter.TagFilter "c" "3"))) := by
  constructor <;> rfl

theorem identStart_imp_identChar (c : Char) (h : isIdentStart c = true) :
    isIdentChar c = true := by
  unfold isIdentChar
  rw [h]
  rfl

theorem not_identChar_not_start (c : Char) (h : isIdentChar c = false) :
    isIdentStart c = false := by
  cases hs : isIdentStart c
  · rfl
  · rw [identStart_imp_identChar c hs] at h
    cases h

theorem space_not_identChar (c : Char) (h : isSpaceChar c = true) :
    isIdentChar c = false := by
  have hd := of_decide_eq_true h
  rcases hd with rfl | rfl | rfl | rfl | rfl | rfl | rfl | rfl <;> decide

theorem takeWhile_append_ext (p : Char → Bool) (v : List Char)
    (hv : ∀ h, v.head? = some h → p h = false) :
    ∀ x : List Char, (x ++ v).takeWhile p = x.takeWhile p ∧
      (x ++ v).dropWhile p = x.dropWhile p ++ v := by
  intro x
  induction x with
  | nil =>
    simp only [List.nil_append, List.takeWhile_nil, List.dropWhile_nil]
    cases v with
    | nil => simp
    | cons h tl =>
      have hh := hv h rfl
      simp [List.takeWhile_cons, List.dropWhile_cons, hh]
  | cons a as ih =>
    by_cases ha : p a = true
    · constructor
      · rw [List.cons_append, List.takeWhile_cons_of_pos ha,
          List.takeWhile_cons_of_pos ha, ih.1]
      · rw [List.cons_append, List.dropWhile_cons_of_pos ha,
          List.dropWhile_cons_of_pos ha, ih.2]
    · constructor
      · rw [List.cons_append, List.takeWhile_cons_of_neg ha,
          List.takeWhile_cons_of_neg ha]
      · rw [List.cons_append, List.dropWhile_cons_of_neg ha,
          List.dropWhile_cons_of_neg ha, List.cons_append]

theorem dropWhile_append_pos (p : Char → Bool) :
    ∀ (x : List Char) (v : List Char) (c : Char) (rest : List Char),
      x.dropWhile p = c :: rest → (x ++ v).dropWhile p = c :: (rest ++ v) := by
  intro x
  induction x with
  | nil =>
    intro v c rest h
    simp [List.dropWhile_nil] at h
  | cons a as ih =>
    intro v c rest h
    by_cases ha : p a = true
    · rw [List.dropWhile_cons_of_pos ha] at h
      rw [List.cons_append, List.dropWhile_cons_of_pos ha]
      exact ih v c rest h
    · rw [List.dropWhile_cons_of_neg ha] at h
      rw [List.cons_append, List.dropWhile_cons_of_neg ha]
      cases h
      rfl

theorem dropWhile_append_nil (p : Char → Bool) :
    ∀ (x : List Char) (v : List Char),
      x.dropWhile p = [] → (x ++ v).dropWhile p = v.dropWhile p := by
  intro x
  induction x with
  | nil => intro v _; rfl
  | cons a as ih =>
    intro v h
    by_cases ha : p a = true
    · rw [List.dropWhile_cons_of_pos ha] at h
      rw [List.cons_append, List.dropWhile_cons_of_pos ha]
      exact ih v h
    · rw [List.dropWhile_cons_of_neg ha] at h
      cases h

theorem dropWhile_append_of_all (p : Char → Bool) :
    ∀ (x : List Char) (v : List Char),
      (∀ a ∈ x, p a = true) → (x ++ v).dropWhile p = v.dropWhile p := by
  intro x
  induction x with
  | nil => intro v _; rfl
  | cons a as ih =>
    intro v hx
    rw [List.cons_append, List.dropWhile_cons_of_pos (hx a (List.mem_cons_self _ _))]
    exact ih v fun b hb => hx b (List.mem_cons_of_mem _ hb)

theorem VExt_head (v : List Char) (hv : VExt v) :
    ∀ h, v.head? = some h → isIdentChar h = false := by
  obtain ⟨ws, c, r, rfl, hws, hcs, hci, _, _, _⟩ := hv
  intro h hh
  cases ws with
  | nil =>
    simp only [List.nil_append, List.head?_cons, Option.some.injEq] at hh
    rw [← hh]
    exact hci
  | cons w ws' =>
    simp only [List.cons_append, List.head?_cons, Option.some.injEq] at hh
    rw [← hh]
    exact space_not_identChar _ (hws w (List.mem_cons_self _ _))

theorem VExt_dropWhile (v : List Char) (hv : VExt v) :
    ∃ c r, v.dropWhile isSpaceChar = c :: r ∧ isSpaceChar c = false ∧
      isIdentChar c = false ∧ c ≠ ':' ∧ c ≠ '(' ∧ c ≠ ')' := by
  obtain ⟨ws, c, r, rfl, hws, hcs, hci, h1, h2, h3⟩ := hv
  refine ⟨c, r, ?_, hcs, hci, h1, h2, h3⟩
  rw [dropWhile_append_of_all isSpaceChar ws (c :: r) hws,
    List.dropWhile_cons_of_neg (by simp [hcs])]

theorem scanIdentTok_ext (x v : List Char)
    (hv : ∀ h, v.head? = some h → isIdentChar h = false) :
    scanIdentTok (x ++ v) = ((scanIdentTok x).1, (scanIdentTok x).2 ++ v) := by
  obtain ⟨ht, hd⟩ := takeWhile_append_ext isIdentChar v hv x
  unfold scanIdentTok
  rw [ht, hd]
  split_ifs <;> rfl

theorem scanIdentTok_ne_eof (x : List Char) :
    (scanIdentTok x).1.typ ≠ tokenType.tokenEOF := by
  unfold scanIdentTok
  split_ifs <;> simp

theorem nextTok_ext (v : List Char) (hv : VExt v) (l : List Char) :
    ((nextTok l).1.typ ≠ tokenType.tokenEOF →
      nextTok (l ++ v) = ((nextTok l).1, (nextTok l).2 ++ v)) ∧
    ((nextTok l).1.typ = tokenType.tokenEOF →
      (nextTok (l ++ v)).1.typ = tokenType.tokenEOF) := by
  obtain ⟨c0, r0, hdv, hcs0, hci0, hq1, hq2, hq3⟩ := VExt_dropWhile v hv
  cases hdw : l.dropWhile isSpaceChar with
  | nil =>
    have h1 : nextTok l = (token.mk tokenType.tokenEOF [], []) := by
      unfold nextTok
      simp only [hdw]
    have h2 : (l ++ v).dropWhile isSpaceChar = c0 :: r0 := by
      rw [dropWhile_append_nil isSpaceChar l v hdw, hdv]
    have hst : isIdentStart c0 = false := not_identChar_not_start c0 hci0
    have h3 : nextTok (l ++ v) = (token.mk tokenType.tokenEOF [], r0) := by
      unfold nextTok
      simp only [h2]
      rw [if_neg hq1, if_neg hq2, if_neg hq3, if_neg (by simp [hst])]
    constructor
    · intro hne
      rw [h1] at hne
      exact absurd rfl hne
    · intro _
      rw [h3]
  | cons c rest =>
    have h2 : (l ++ v).dropWhile isSpaceChar = c :: (rest ++ v) :=
      dropWhile_append_pos isSpaceChar l v c rest hdw
    by_cases hc1 : c = ':'
    · subst hc1
      have h1 : nextTok l = (token.mk tokenType.tokenColon [':'], rest) := by
        unfold nextTok
        simp [hdw]
      have h3 : nextTok (l ++ v) = (token.mk tokenType.tokenColon [':'], rest ++ v) := by
        unfold nextTok
        simp [h2]
      constructor
      · intro _
        rw [h1, h3]
      · intro he
        rw [h1] at he
        cases he
    · by_cases hc2 : c = '('
      · subst hc2
        have h1 : nextTok l = (token.mk tokenType.tokenLParen ['('], rest) := by
          unfold nextTok
          simp [hdw]
        have h3 : nextTok (l ++ v) =
            (token.mk tokenType.tokenLParen ['('], rest ++ v) := by
          unfold nextTok
          simp [h2]
        constructor
        · intro _
          rw [h1, h3]
        · intro he
          rw [h1] at he
          cases he
      · by_cases hc3 : c = ')'
        · subst hc3
          have h1 : nextTok l = (token.mk tokenType.tokenRParen [')'], rest) := by
            unfold nextTok
            simp [hdw]
          have h3 : nextTok (l ++ v) =
              (token.mk tokenType.tokenRParen [')'], rest ++ v) := by
            unfold nextTok
            simp [h2]
          constructor
          · intro _
            rw [h1, h3]
          · intro he
            rw [h1] at he
            cases he
        · by_cases hid : isIdentStart c = true
          · have h1 : nextTok l = scanIdentTok (c :: rest) := by
              unfold nextTok
              simp only [hdw]
              rw [if_neg hc1, if_neg hc2, if_neg hc3, if_pos hid]
            have h3 : nextTok (l ++ v) = scanIdentTok (c :: (rest ++ v)) := by
              unfold nextTok
              simp only [h2]
              rw [if_neg hc1, if_neg hc2, if_neg hc3, if_pos hid]
            have hext := scanIdentTok_ext (c :: rest) v (VExt_head v hv)
            constructor
            · intro _
              rw [h1, h3]
              exact hext
            · intro he
              rw [h1] at he
              exact absurd he (scanIdentTok_ne_eof (c :: rest))
          · have h1 : nextTok l = (token.mk tokenType.tokenEOF [], rest) := by
              unfold nextTok
              simp only [hdw]
              rw [if_neg hc1, if_neg hc2, if_neg hc3, if_neg hid]
            have h3 : nextTok (l ++ v) =
                (token.mk tokenType.tokenEOF [], rest ++ v) := by
              unfold nextTok
              simp only [h2]
              rw [if_neg hc1, if_neg hc2, if_neg hc3, if_neg hid]
            constructor
            · intro hne
              rw [h1] at hne
              exact absurd rfl hne
            · intro _
              rw [h3]

theorem nextTok_rel (v : List Char) (hv : VExt v) (l : List Char) :
    RelSt v (PState.mk (nextTok l).1 (nextTok l).2)
      (PState.mk (nextTok (l ++ v)).1 (nextTok (l ++ v)).2) := by
  obtain ⟨h1, h2⟩ := nextTok_ext v hv l
  by_cases he : (nextTok l).1.typ = tokenType.tokenEOF
  · exact Or.inr ⟨he, h2 he⟩
  · have h3 := h1 he
    exact Or.inl ⟨he, by rw [h3], by rw [h3]⟩

theorem pAdvance_rel (v : List Char) (hv : VExt v) (s s' : PState)
    (hrest : s'.rest = s.rest ++ v) : RelSt v (pAdvance s) (pAdvance s') := by
  have h := nextTok_rel v hv s.rest
  unfold pAdvance
  rw [hrest]
  exact h

theorem pInit_rel (v : List Char) (hv : VExt v) (l : List Char) :
    RelSt v (pInit l) (pInit (l ++ v)) :=
  nextTok_rel v hv l

theorem scanIdentTok_snd (x : List Char) :
    (scanIdentTok x).2 = x.dropWhile isIdentChar := by
  unfold scanIdentTok
  split_ifs <;> rfl

theorem nextTok_shrink (l : List Char) :
    (nextTok l).2.length ≤ l.length ∧
    ((nextTok l).1.typ ≠ tokenType.tokenEOF → (nextTok l).2.length < l.length) := by
  cases hdw : l.dropWhile isSpaceChar with
  | nil =>
    have h1 : nextTok l = (token.mk tokenType.tokenEOF [], []) := by
      unfold nextTok
      simp only [hdw]
    rw [h1]
    exact ⟨Nat.zero_le _, fun hne => absurd rfl hne⟩
  | cons c rest0 =>
    have hlen : rest0.length + 1 ≤ l.length := by
      have h2 : (l.dropWhile isSpaceChar).length ≤ l.length :=
        (List.dropWhile_sublist _).length_le
      rw [hdw] at h2
      simpa using h2
    by_cases hc1 : c = ':'
    · subst hc1
      have h1 : nextTok l = (token.mk tokenType.tokenColon [':'], rest0) := by
        unfold nextTok
        simp [hdw]
      rw [h1]
      exact ⟨by dsimp only; omega, fun _ => by dsimp only; omega⟩
    · by_cases hc2 : c = '('
      · subst hc2
        have h1 : nextTok l = (token.mk tokenType.tokenLParen ['('], rest0) := by
          unfold nextTok
          simp [hdw]
        rw [h1]
        exact ⟨by dsimp only; omega, fun _ => by dsimp only; omega⟩
      · by_cases hc3 : c = ')'
        · subst hc3
          have h1 : nextTok l = (token.mk tokenType.tokenRParen [')'], rest0) := by
            unfold nextTok
            simp [hdw]
          rw [h1]
          exact ⟨by dsimp only; omega, fun _ => by dsimp only; omega⟩
        · by_cases hid : isIdentStart c = true
          · have h1 : nextTok l = scanIdentTok (c :: rest0) := by
              unfold nextTok
              simp only [hdw]
              rw [if_neg hc1, if_neg hc2, if_neg hc3, if_pos hid]
            have hdc : (c :: rest0).dropWhile isIdentChar = rest0.dropWhile isIdentChar :=
              List.dropWhile_cons_of_pos (identStart_imp_identChar c hid)
            have hlen2 : (rest0.dropWhile isIdentChar).length ≤ rest0.length :=
              (List.dropWhile_sublist _).length_le
            rw [h1, scanIdentTok_snd, hdc]
            exact ⟨by omega, fun _ => by omega⟩
          · have h1 : nextTok l = (token.mk tokenType.tokenEOF [], rest0) := by
              unfold nextTok
              simp only [hdw]
              rw [if_neg hc1, if_neg hc2, if_neg hc3, if_neg hid]
            rw [h1]
            exact ⟨by dsimp only; omega, fun hne => absurd rfl hne⟩

theorem pAdvance_weight (s : PState) : stWeight (pAdvance s) ≤ 2 * s.rest.length := by
  obtain ⟨hle, hlt⟩ := nextTok_shrink s.rest
  simp only [stWeight, pAdvance]
  by_cases he : (nextTok s.rest).1.typ = tokenType.tokenEOF
  · rw [if_pos he]
    omega
  · rw [if_neg he]
    have := hlt he
    omega

theorem pAdvance_weight_le (s : PState) : stWeight (pAdvance s) ≤ stWeight s := by
  have h := pAdvance_weight s
  have h2 : 2 * s.rest.length ≤ stWeight s := by
    unfold stWeight
    split <;> omega
  omega

theorem pAdvance_weight_lt (s : PState) (hne : s.cur.typ ≠ tokenType.tokenEOF) :
    stWeight (pAdvance s) < stWeight s := by
  have h := pAdvance_weight s
  have h2 : stWeight s = 2 * s.rest.length + 1 := by
    unfold stWeight
    rw [if_neg hne]
  omega

theorem parseTag_consume (s : PState) (f : Filter) (t : PState)
    (hok : parseTag s = Except.ok (f, t)) : stWeight t < stWeight s := by
  unfold parseTag at hok
  by_cases h1 : s.cur.typ = tokenType.tokenIdent
  · rw [if_pos h1] at hok
    by_cases h2 : (pAdvance s).cur.typ = tokenType.tokenColon
    · rw [if_pos h2] at hok
      by_cases h3 : (pAdvance (pAdvance s)).cur.typ = tokenType.tokenIdent
      · rw [if_pos h3] at hok
        simp only [Except.ok.injEq, Prod.mk.injEq] at hok
        have l1 : stWeight (pAdvance s) < stWeight s :=
          pAdvance_weight_lt s (by rw [h1]; intro hx; cases hx)
        have l2 := pAdvance_weight_le (pAdvance s)
        have l3 := pAdvance_weight_le (pAdvance (pAdvance s))
        rw [← hok.2]
        omega
      · rw [if_neg h3] at hok
        cases hok
    · rw [if_neg h2] at hok
      cases hok
  · rw [if_neg h1] at hok
    cases hok

theorem parse_consume : ∀ n : Nat,
    (∀ s f t, parseExpr n s = Except.ok (f, t) → stWeight t < stWeight s) ∧
    (∀ l s f t, parseExprLoop n l s = Except.ok (f, t) → stWeight t ≤ stWeight s) ∧
    (∀ s f t, parseTerm n s = Except.ok (f, t) → stWeight t < stWeight s) ∧
    (∀ l s f t, parseTermLoop n l s = Except.ok (f, t) → stWeight t ≤ stWeight s) ∧
    (∀ s f t, parseFactor n s = Except.ok (f, t) → stWeight t < stWeight s) := by
  intro n
  induction n with
  | zero =>
    refine ⟨?_, ?_, ?_, ?_, ?_⟩
    · intro s f t hok
      simp [parseExpr] at hok
    · intro l s f t hok
      simp [parseExprLoop] at hok
    · intro s f t hok
      simp [parseTerm] at hok
    · intro l s f t hok
      simp [parseTermLoop] at hok
    · intro s f t hok
      simp [parseFactor] at hok
  | succ n ih =>
    obtain ⟨ihE, ihEL, ihT, ihTL, ihF⟩ := ih
    refine ⟨?_, ?_, ?_, ?_, ?_⟩
    · intro s f t hok
      simp only [parseExpr] at hok
      cases hterm : parseTerm n s with
      | error e =>
        simp only [hterm] at hok
        cases hok
      | ok pair =>
        obtain ⟨l, s1⟩ := pair
        simp only [hterm] at hok
        have h1 := ihT s l s1 hterm
        have h2 := ihEL l s1 f t hok
        omega
    · intro l s f t hok
      simp only [parseExprLoop] at hok
      by_cases hor : s.cur.typ = tokenType.tokenOr
      · rw [if_pos hor] at hok
        cases hterm : parseTerm n (pAdvance s) with
        | error e =>
          simp only [hterm] at hok
          cases hok
        | ok pair =>
          obtain ⟨rt, s1⟩ := pair
          simp only [hterm] at hok
          have ha : stWeight (pAdvance s) < stWeight s :=
            pAdvance_weight_lt s (by rw [hor]; intro hx; cases hx)
          have h1 := ihT (pAdvance s) rt s1 hterm
          have h2 := ihEL (Filter.OrFilter l rt) s1 f t hok
          omega
      · rw [if_neg hor] at hok
        simp only [Except.ok.injEq, Prod.mk.injEq] at hok
        rw [← hok.2]
    · intro s f t hok
      simp only [parseTerm] at hok
      cases hfac : parseFactor n s with
      | error e =>
        simp only [hfac] at hok
        cases hok
      | ok pair =>
        obtain ⟨l, s1⟩ := pair
        simp only [hfac] at hok
        have h1 := ihF s l s1 hfac
        have h2 := ihTL l s1 f t hok
        omega
    · intro l s f t hok
      simp only [parseTermLoop] at hok
      by_cases hand : s.cur.typ = tokenType.tokenAnd
      · rw [if_pos hand] at hok
        cases hfac : parseFactor n (pAdvance s) with
        | error e =>
          simp only [hfac] at hok
          cases hok
        | ok pair =>
          obtain ⟨rt, s1⟩ := pair
          simp only [hfac] at hok
          have ha : stWeight (pAdvance s) < stWeight s :=
            pAdvance_weight_lt s (by rw [hand]; intro hx; cases hx)
          have h1 := ihF (pAdvance s) rt s1 hfac
          have h2 := ihTL (Filter.AndFilter l rt) s1 f t hok
          omega
      · rw [if_neg hand] at hok
        simp only [Except.ok.injEq, Prod.mk.injEq] at hok
        rw [← hok.2]
    · intro s f t hok
      simp only [parseFactor] at hok
      by_cases hlp : s.cur.typ = tokenType.tokenLParen
      · rw [if_pos hlp] at hok
        cases hexp : parseExpr n (pAdvance s) with
        | error e =>
          simp only [hexp] at hok
          cases hok
        | ok pair =>
          obtain ⟨g, s1⟩ := pair
          simp only [hexp] at hok
          by_cases hrp : s1.cur.typ = tokenType.tokenRParen
          · rw [if_pos hrp] at hok
            simp only [Except.ok.injEq, Prod.mk.injEq] at hok
            have ha : stWeight (pAdvance s) < stWeight s :=
              pAdvance_weight_lt s (by rw [hlp]; intro hx; cases hx)
            have h1 := ihE (pAdvance s) g s1 hexp
            have h2 := pAdvance_weight_le s1
            rw [← hok.2]
            omega
          · rw [if_neg hrp] at hok
            cases hok
      · rw [if_neg hlp] at hok
        exact parseTag_consume s f t hok

theorem parseTag_no_fuel (s : PState) :
    parseTag s ≠ Except.error "parser recursion limit" := by
  unfold parseTag
  split_ifs <;> intro hcon <;>
    first
      | cases hcon
      | (simp only [Except.error.injEq] at hcon
         exact absurd hcon (by decide))

/-- The fuel-exhaustion branch of the fueled parser is unreachable whenever
the fuel exceeds three units per state-weight level: at such budgets the
embedded parser never returns the fuel error, so it computes exactly what
the unbounded Go recursion computes. -/
theorem parse_no_fuel : ∀ n : Nat,
    (∀ s, 3 * stWeight s + 3 ≤ n →
      parseExpr n s ≠ Except.error "parser recursion limit") ∧
    (∀ l s, 3 * stWeight s + 3 ≤ n →
      parseExprLoop n l s ≠ Except.error "parser recursion limit") ∧
    (∀ s, 3 * stWeight s + 2 ≤ n →
      parseTerm n s ≠ Except.error "parser recursion limit") ∧
    (∀ l s, 3 * stWeight s + 2 ≤ n →
      parseTermLoop n l s ≠ Except.error "parser recursion limit") ∧
    (∀ s, 3 * stWeight s + 1 ≤ n →
      parseFactor n s ≠ Except.error "parser recursion limit") := by
  intro n
  induction n with
  | zero =>
    refine ⟨?_, ?_, ?_, ?_, ?_⟩
    · intro s h
      omega
    · intro l s h
      omega
    · intro s h
      omega
    · intro l s h
      omega
    · intro s h
      omega
  | succ n ih =>
    obtain ⟨ihE, ihEL, ihT, ihTL, ihF⟩ := ih
    refine ⟨?_, ?_, ?_, ?_, ?_⟩
    · intro s hth
      simp only [parseExpr]
      cases hterm : parseTerm n s with
      | error e =>
        intro hcon
        simp only [Except.error.injEq] at hcon
        exact ihT s (by omega) (by rw [hterm, hcon])
      | ok pair =>
        obtain ⟨l, s1⟩ := pair
        have hw := (parse_consume n).2.2.1 s l s1 hterm
        exact ihEL l s1 (by omega)
    · intro l s hth
      simp only [parseExprLoop]
      by_cases hor : s.cur.typ = tokenType.tokenOr
      · rw [if_pos hor]
        have ha : stWeight (pAdvance s) < stWeight s :=
          pAdvance_weight_lt s (by rw [hor]; intro hx; cases hx)
        cases hterm : parseTerm n (pAdvance s) with
        | error e =>
          intro hcon
          simp only [Except.error.injEq] at hcon
          exact ihT (pAdvance s) (by omega) (by rw [hterm, hcon])
        | ok pair =>
          obtain ⟨rt, s1⟩ := pair
          have hw := (parse_consume n).2.2.1 (pAdvance s) rt s1 hterm
          exact ihEL (Filter.OrFilter l rt) s1 (by omega)
      · rw [if_neg hor]
        intro hcon
        cases hcon
    · intro s hth
      simp only [parseTerm]
      cases hfac : parseFactor n s with
      | error e =>
        intro hcon
        simp only [Except.error.injEq] at hcon
        exact ihF s (by omega) (by rw [hfac, hcon])
      | ok pair =>
        obtain ⟨l, s1⟩ := pair
        have hw := (parse_consume n).2.2.2.2 s l s1 hfac
        exact ihTL l s1 (by omega)
    · intro l s hth
      simp only [parseTermLoop]
      by_cases hand : s.cur.typ = tokenType.tokenAnd
      · rw [if_pos hand]
        have ha : stWeight (pAdvance s) < stWeight s :=
          pAdvance_weight_lt s (by rw [hand]; intro hx; cases hx)
        cases hfac : parseFactor n (pAdvance s) with
        | error e =>
          intro hcon
          simp only [Except.error.injEq] at hcon
          exact ihF (pAdvance s) (by omega) (by rw [hfac, hcon])
        | ok pair =>
          obtain ⟨rt, s1⟩ := pair
          have hw := (parse_consume n).2.2.2.2 (pAdvance s) rt s1 hfac
          exact ihTL (Filter.AndFilter l rt) s1 (by omega)
      · rw [if_neg hand]
        intro hcon
        cases hcon
    · intro s hth
      simp only [parseFactor]
      by_cases hlp : s.cur.typ = tokenType.tokenLParen
      · rw [if_pos hlp]
        have ha : stWeight (pAdvance s) < stWeight s :=
          pAdvance_weight_lt s (by rw [hlp]; intro hx; cases hx)
        cases hexp : parseExpr n (pAdvance s) with
        | error e =>
          intro hcon
          simp only [Except.error.injEq] at hcon
          exact ihE (pAdvance s) (by omega) (by rw [hexp, hcon])
        | ok pair =>
          obtain ⟨g, s1⟩ := pair
          dsimp only
          by_cases hrp : s1.cur.typ = tokenType.tokenRParen
          · rw [if_pos hrp]
            intro hcon
            cases hcon
          · rw [if_neg hrp]
            intro hcon
            simp only [Except.error.injEq] at hcon
            exact absurd hcon (by decide)
      · rw [if_neg hlp]
        exact parseTag_no_fuel s

theorem stWeight_pInit (input : List Char) :
    stWeight (pInit input) ≤ 2 * input.length + 1 := by
  have h := (nextTok_shrink input).1
  simp only [stWeight, pInit]
  split <;> omega

/-- `ParseFilter`'s fuel budget is never exhausted: the embedded parser never
returns the fuel error on any input, so the embedding has no error path that
the Go `ParseFilter` lacks. -/
theorem ParseFilter_no_fuel_error (input : List Char) :
    ParseFilter input ≠ Except.error "parser recursion limit" := by
  unfold ParseFilter
  by_cases hall : input.all isSpaceChar = true
  · rw [if_pos hall]
    intro hcon
    cases hcon
  · rw [if_neg hall]
    have hs := stWeight_pInit input
    have hne := (parse_no_fuel (6 * input.length + 6)).1 (pInit input) (by omega)
    cases hp : parseExpr (6 * input.length + 6) (pInit input) with
    | error e =>
      intro hcon
      simp only [hp] at hcon
      simp only [Except.error.injEq] at hcon
      exact hne (by rw [hp, hcon])
    | ok pair =>
      intro hcon
      simp only [hp] at hcon
      cases hcon

/-- Sanity check for the budget: parenthesis nesting of depth two parses,
as it does in Go. -/
theorem parseFilter_nested_parens :
    ParseFilter "((a:b))".toList = Except.ok (some (Filter.TagFilter "a" "b")) := rfl

theorem parseTag_ext (v : List Char) (hv : VExt v) (s s' : PState)
    (hcur : s'.cur = s.cur) (hrest : s'.rest = s.rest ++ v) (f : Filter) (t : PState)
    (hok : parseTag s = Except.ok (f, t)) :
    ∃ t', parseTag s' = Except.ok (f, t') ∧ RelSt v t t' := by
  unfold parseTag at hok ⊢
  by_cases h1 : s.cur.typ = tokenType.tokenIdent
  · rw [if_pos h1] at hok
    have hrel1 : RelSt v (pAdvance s) (pAdvance s') := pAdvance_rel v hv s s' hrest
    by_cases h2 : (pAdvance s).cur.typ = tokenType.tokenColon
    · rw [if_pos h2] at hok
      have hne1 : (pAdvance s).cur.typ ≠ tokenType.tokenEOF := by
        rw [h2]
        intro hx
        cases hx
      rcases hrel1 with ⟨_, hcur1, hrest1⟩ | ⟨heof1, _⟩
      · by_cases h3 : (pAdvance (pAdvance s)).cur.typ = tokenType.tokenIdent
        · rw [if_pos h3] at hok
          have hne2 : (pAdvance (pAdvance s)).cur.typ ≠ tokenType.tokenEOF := by
            rw [h3]
            intro hx
            cases hx
          have hrel2 : RelSt v (pAdvance (pAdvance s)) (pAdvance (pAdvance s')) :=
            pAdvance_rel v hv _ _ hrest1
          rcases hrel2 with ⟨_, hcur2, hrest2⟩ | ⟨heof2, _⟩
          · simp only [Except.ok.injEq, Prod.mk.injEq] at hok
            rw [hcur, if_pos h1, hcur1, if_pos h2, hcur2, if_pos h3]
            refine ⟨pAdvance (pAdvance (pAdvance s')), ?_, ?_⟩
            · simp only [Except.ok.injEq, Prod.mk.injEq]
              exact ⟨hok.1, trivial⟩
            · rw [← hok.2]
              exact pAdvance_rel v hv _ _ hrest2
          · exact absurd heof2 hne2
        · rw [if_neg h3] at hok
          cases hok
      · exact absurd heof1 hne1
    · rw [if_neg h2] at hok
      cases hok
  · rw [if_neg h1] at hok
    cases hok

theorem parse_mono : ∀ n : Nat,
    (∀ m s r, n ≤ m → parseExpr n s = Except.ok r → parseExpr m s = Except.ok r) ∧
    (∀ m l s r, n ≤ m → parseExprLoop n l s = Except.ok r →
      parseExprLoop m l s = Except.ok r) ∧
    (∀ m s r, n ≤ m → parseTerm n s = Except.ok r → parseTerm m s = Except.ok r) ∧
    (∀ m l s r, n ≤ m → parseTermLoop n l s = Except.ok r →
      parseTermLoop m l s = Except.ok r) ∧
    (∀ m s r, n ≤ m → parseFactor n s = Except.ok r → parseFactor m s = Except.ok r) := by
  intro n
  induction n with
  | zero =>
    refine ⟨?_, ?_, ?_, ?_, ?_⟩
    · intro m s r _ hok
      simp [parseExpr] at hok
    · intro m l s r _ hok
      simp [parseExprLoop] at hok
    · intro m s r _ hok
      simp [parseTerm] at hok
    · intro m l s r _ hok
      simp [parseTermLoop] at hok
    · intro m s r _ hok
      simp [parseFactor] at hok
  | succ n ih =>
    obtain ⟨ihE, ihEL, ihT, ihTL, ihF⟩ := ih
    refine ⟨?_, ?_, ?_, ?_, ?_⟩
    · intro m s r hm hok
      obtain ⟨m', rfl⟩ : ∃ m', m = m' + 1 := ⟨m - 1, by omega⟩
      have hm' : n ≤ m' := by omega
      simp only [parseExpr] at hok ⊢
      cases hterm : parseTerm n s with
      | error e =>
        simp only [hterm] at hok
        cases hok
      | ok pair =>
        obtain ⟨l, s1⟩ := pair
        simp only [hterm] at hok
        simp only [ihT m' s (l, s1) hm' hterm]
        exact ihEL m' l s1 r hm' hok
    · intro m l s r hm hok
      obtain ⟨m', rfl⟩ : ∃ m', m = m' + 1 := ⟨m - 1, by omega⟩
      have hm' : n ≤ m' := by omega
      simp only [parseExprLoop] at hok ⊢
      by_cases hor : s.cur.typ = tokenType.tokenOr
      · rw [if_pos hor] at hok ⊢
        cases hterm : parseTerm n (pAdvance s) with
        | error e =>
          simp only [hterm] at hok
          cases hok
        | ok pair =>
          obtain ⟨rt, s1⟩ := pair
          simp only [hterm] at hok
          simp only [ihT m' (pAdvance s) (rt, s1) hm' hterm]
          exact ihEL m' (Filter.OrFilter l rt) s1 r hm' hok
      · rw [if_neg hor] at hok ⊢
        exact hok
    · intro m s r hm hok
      obtain ⟨m', rfl⟩ : ∃ m', m = m' + 1 := ⟨m - 1, by omega⟩
      have hm' : n ≤ m' := by omega
      simp only [parseTerm] at hok ⊢
      cases hfac : parseFactor n s with
      | error e =>
        simp only [hfac] at hok
        cases hok
      | ok pair =>
        obtain ⟨l, s1⟩ := pair
        simp only [hfac] at hok
        simp only [ihF m' s (l, s1) hm' hfac]
        exact ihTL m' l s1 r hm' hok
    · intro m l s r hm hok
      obtain ⟨m', rfl⟩ : ∃ m', m = m' + 1 := ⟨m - 1, by omega⟩
      have hm' : n ≤ m' := by omega
      simp only [parseTermLoop] at hok ⊢
      by_cases hand : s.cur.typ = tokenType.tokenAnd
      · rw [if_pos hand] at hok ⊢
        cases hfac : parseFactor n (pAdvance s) with
        | error e =>
          simp only [hfac] at hok
          cases hok
        | ok pair =>
          obtain ⟨rt, s1⟩ := pair
          simp only [hfac] at hok
          simp only [ihF m' (pAdvance s) (rt, s1) hm' hfac]
          exact ihTL m' (Filter.AndFilter l rt) s1 r hm' hok
      · rw [if_neg hand] at hok ⊢
        exact hok
    · intro m s r hm hok
      obtain ⟨m', rfl⟩ : ∃ m', m = m' + 1 := ⟨m - 1, by omega⟩
      have hm' : n ≤ m' := by omega
      simp only [parseFactor] at hok ⊢
      by_cases hlp : s.cur.typ = tokenType.tokenLParen
      · rw [if_pos hlp] at hok ⊢
        cases hexp : parseExpr n (pAdvance s) with
        | error e =>
          simp only [hexp] at hok
          cases hok
        | ok pair =>
          obtain ⟨g, s1⟩ := pair
          simp only [hexp] at hok
          simp only [ihE m' (pAdvance s) (g, s1) hm' hexp]
          exact hok
      · rw [if_neg hlp] at hok ⊢
        exact hok

theorem parse_ext (v : List Char) (hv : VExt v) : ∀ n : Nat,
    (∀ s s' f t, RelSt v s s' → parseExpr n s = Except.ok (f, t) →
      ∃ t', parseExpr n s' = Except.ok (f, t') ∧ RelSt v t t') ∧
    (∀ l s s' f t, RelSt v s s' → parseExprLoop n l s = Except.ok (f, t) →
      ∃ t', parseExprLoop n l s' = Except.ok (f, t') ∧ RelSt v t t') ∧
    (∀ s s' f t, RelSt v s s' → parseTerm n s = Except.ok (f, t) →
      ∃ t', parseTerm n s' = Except.ok (f, t') ∧ RelSt v t t') ∧
    (∀ l s s' f t, RelSt v s s' → parseTermLoop n l s = Except.ok (f, t) →
      ∃ t', parseTermLoop n l s' = Except.ok (f, t') ∧ RelSt v t t') ∧
    (∀ s s' f t, RelSt v s s' → parseFactor n s = Except.ok (f, t) →
      ∃ t', parseFactor n s' = Except.ok (f, t') ∧ RelSt v t t') := by
  intro n
  induction n with
  | zero =>
    refine ⟨?_, ?_, ?_, ?_, ?_⟩
    · intro s s' f t _ hok
      simp [parseExpr] at hok
    · intro l s s' f t _ hok
      simp [parseExprLoop] at hok
    · intro s s' f t _ hok
      simp [parseTerm] at hok
    · intro l s s' f t _ hok
      simp [parseTermLoop] at hok
    · intro s s' f t _ hok
      simp [parseFactor] at hok
  | succ n ih =>
    obtain ⟨ihE, ihEL, ihT, ihTL, ihF⟩ := ih
    refine ⟨?_, ?_, ?_, ?_, ?_⟩
    · intro s s' f t hrel hok
      simp only [parseExpr] at hok ⊢
      cases hterm : parseTerm n s with
      | error e =>
        simp only [hterm] at hok
        cases hok
      | ok pair =>
        obtain ⟨l, s1⟩ := pair
        simp only [hterm] at hok
        obtain ⟨s1', hT', hrel1⟩ := ihT s s' l s1 hrel hterm
        obtain ⟨t', hEL', hrel2⟩ := ihEL l s1 s1' f t hrel1 hok
        refine ⟨t', ?_, hrel2⟩
        simp only [hT']
        exact hEL'
    · intro l s s' f t hrel hok
      simp only [parseExprLoop] at hok ⊢
      by_cases hor : s.cur.typ = tokenType.tokenOr
      · have hne : s.cur.typ ≠ tokenType.tokenEOF := by
          rw [hor]
          intro hx
          cases hx
        rcases hrel with ⟨_, hcur, hrest⟩ | ⟨heof, _⟩
        · rw [if_pos hor] at hok
          cases hterm : parseTerm n (pAdvance s) with
          | error e =>
            simp only [hterm] at hok
            cases hok
          | ok pair =>
            obtain ⟨rt, s1⟩ := pair
            simp only [hterm] at hok
            have hadv : RelSt v (pAdvance s) (pAdvance s') := pAdvance_rel v hv s s' hrest
            obtain ⟨s1', hT', hrel1⟩ := ihT (pAdvance s) (pAdvance s') rt s1 hadv hterm
            obtain ⟨t', hEL', hrel2⟩ := ihEL (Filter.OrFilter l rt) s1 s1' f t hrel1 hok
            refine ⟨t', ?_, hrel2⟩
            rw [hcur, if_pos hor]
            simp only [hT']
            exact hEL'
        · exact absurd heof hne
      · rw [if_neg hor] at hok
        simp only [Except.ok.injEq, Prod.mk.injEq] at hok
        obtain ⟨hf, ht⟩ := hok
        rcases hrel with ⟨hne, hcur, hrest⟩ | ⟨heof, heof'⟩
        · refine ⟨s', ?_, ?_⟩
          · rw [hcur, if_neg hor]
            simp only [Except.ok.injEq, Prod.mk.injEq]
            exact ⟨hf, trivial⟩
          · rw [← ht]
            exact Or.inl ⟨hne, hcur, hrest⟩
        · have hor' : s'.cur.typ ≠ tokenType.tokenOr := by
            rw [heof']
            intro hx
            cases hx
          refine ⟨s', ?_, ?_⟩
          · rw [if_neg hor']
            simp only [Except.ok.injEq, Prod.mk.injEq]
            exact ⟨hf, trivial⟩
          · rw [← ht]
            exact Or.inr ⟨heof, heof'⟩
    · intro s s' f t hrel hok
      simp only [parseTerm] at hok ⊢
      cases hfac : parseFactor n s with
      | error e =>
        simp only [hfac] at hok
        cases hok
      | ok pair =>
        obtain ⟨l, s1⟩ := pair
        simp only [hfac] at hok
        obtain ⟨s1', hF', hrel1⟩ := ihF s s' l s1 hrel hfac
        obtain ⟨t', hTL', hrel2⟩ := ihTL l s1 s1' f t hrel1 hok
        refine ⟨t', ?_, hrel2⟩
        simp only [hF']
        exact hTL'
    · intro l s s' f t hrel hok
      simp only [parseTermLoop] at hok ⊢
      by_cases hand : s.cur.typ = tokenType.tokenAnd
      · have hne : s.cur.typ ≠ tokenType.tokenEOF := by
          rw [hand]
          intro hx
          cases hx
        rcases hrel with ⟨_, hcur, hrest⟩ | ⟨heof, _⟩
        · rw [if_pos hand] at hok
          cases hfac : parseFactor n (pAdvance s) with
          | error e =>
            simp only [hfac] at hok
            cases hok
          | ok pair =>
            obtain ⟨rt, s1⟩ := pair
            simp only [hfac] at hok
            have hadv : RelSt v (pAdvance s) (pAdvance s') := pAdvance_rel v hv s s' hrest
            obtain ⟨s1', hF', hrel1⟩ := ihF (pAdvance s) (pAdvance s') rt s1 hadv hfac
            obtain ⟨t', hTL', hrel2⟩ := ihTL (Filter.AndFilter l rt) s1 s1' f t hrel1 hok
            refine ⟨t', ?_, hrel2⟩
            rw [hcur, if_pos hand]
            simp only [hF']
            exact hTL'
        · exact absurd heof hne
      · rw [if_neg hand] at hok
        simp only [Except.ok.injEq, Prod.mk.injEq] at hok
        obtain ⟨hf, ht⟩ := hok
        rcases hrel with ⟨hne, hcur, hrest⟩ | ⟨heof, heof'⟩
        · refine ⟨s', ?_, ?_⟩
          · rw [hcur, if_neg hand]
            simp only [Except.ok.injEq, Prod.mk.injEq]
            exact ⟨hf, trivial⟩
          · rw [← ht]
            exact Or.inl ⟨hne, hcur, hrest⟩
        · have hand' : s'.cur.typ ≠ tokenType.tokenAnd := by
            rw [heof']
            intro hx
            cases hx
          refine ⟨s', ?_, ?_⟩
          · rw [if_neg hand']
            simp only [Except.ok.injEq, Prod.mk.injEq]
            exact ⟨hf, trivial⟩
          · rw [← ht]
            exact Or.inr ⟨heof, heof'⟩
    · intro s s' f t hrel hok
      simp only [parseFactor] at hok ⊢
      by_cases hlp : s.cur.typ = tokenType.tokenLParen
      · have hne : s.cur.typ ≠ tokenType.tokenEOF := by
          rw [hlp]
          intro hx
          cases hx
        rcases hrel with ⟨_, hcur, hrest⟩ | ⟨heof, _⟩
        · rw [if_pos hlp] at hok
          cases hexp : parseExpr n (pAdvance s) with
          | error e =>
            simp only [hexp] at hok
            cases hok
          | ok pair =>
            obtain ⟨g, s1⟩ := pair
            simp only [hexp] at hok
            by_cases hrp : s1.cur.typ = tokenType.tokenRParen
            · rw [if_pos hrp] at hok
              simp only [Except.ok.injEq, Prod.mk.injEq] at hok
              obtain ⟨hf, ht⟩ := hok
              have hadv : RelSt v (pAdvance s) (pAdvance s') := pAdvance_rel v hv s s' hrest
              obtain ⟨s1', hE', hrel1⟩ := ihE (pAdvance s) (pAdvance s') g s1 hadv hexp
              have hne1 : s1.cur.typ ≠ tokenType.tokenEOF := by
                rw [hrp]
                intro hx
                cases hx
              rcases hrel1 with ⟨_, hcur1, hrest1⟩ | ⟨heof1, _⟩
              · refine ⟨pAdvance s1', ?_, ?_⟩
                · rw [hcur, if_pos hlp]
                  simp only [hE']
                  rw [hcur1, if_pos hrp]
                  simp only [Except.ok.injEq, Prod.mk.injEq]
                  exact ⟨hf, trivial⟩
                · rw [← ht]
                  exact pAdvance_rel v hv _ _ hrest1
              · exact absurd heof1 hne1
            · rw [if_neg hrp] at hok
              cases hok
        · exact absurd heof hne
      · rw [if_neg hlp] at hok
        rcases hrel with ⟨hne, hcur, hrest⟩ | ⟨heof, heof'⟩
        · obtain ⟨t', hT', hrel'⟩ := parseTag_ext v hv s s' hcur hrest f t hok
          have hlp' : s'.cur.typ ≠ tokenType.tokenLParen := by
            rw [hcur]
            exact hlp
          refine ⟨t', ?_, hrel'⟩
          rw [if_neg hlp']
          exact hT'
        · exfalso
          have hident : s.cur.typ ≠ tokenType.tokenIdent := by
            rw [heof]
            intro hx
            cases hx
          unfold parseTag at hok
          rw [if_neg hident] at hok
          cases hok

/-- C10: when a string on which `ParseFilter` succeeds is extended with
optional whitespace, a character that is neither whitespace, an identifier
character, `:`, `(` nor `)`, and then arbitrary text, `ParseFilter` still
succeeds with the same AST and no error: the lexer turns the first
unrecognized character into an end-of-input token, so everything from that
character on is silently ignored. -/
theorem c10_trailing_junk (w ws r : List Char) (c : Char) (f : Filter)
    (hw : ParseFilter w = Except.ok (some f))
    (hws : ∀ x ∈ ws, isSpaceChar x = true)
    (hcs : isSpaceChar c = false) (hci : isIdentChar c = false)
    (hc1 : c ≠ ':') (hc2 : c ≠ '(') (hc3 : c ≠ ')') :
    ParseFilter (w ++ (ws ++ c :: r)) = Except.ok (some f) := by
  have hv : VExt (ws ++ c :: r) := ⟨ws, c, r, rfl, hws, hcs, hci, hc1, hc2, hc3⟩
  unfold ParseFilter at hw ⊢
  by_cases hall : w.all isSpaceChar = true
  · rw [if_pos hall] at hw
    simp at hw
  · rw [if_neg hall] at hw
    have hall2 : ¬((w ++ (ws ++ c :: r)).all isSpaceChar = true) := by
      intro hcon
      rw [List.all_append, Bool.and_eq_true] at hcon
      exact hall hcon.1
    rw [if_neg hall2]
    cases hp : parseExpr (6 * w.length + 6) (pInit w) with
    | error e =>
      simp only [hp] at hw
      cases hw
    | ok pair =>
      obtain ⟨g, sfin⟩ := pair
      simp only [hp] at hw
      simp only [Except.ok.injEq, Option.some.injEq] at hw
      subst hw
      have hlen : 6 * w.length + 6 ≤ 6 * (w ++ (ws ++ c :: r)).length + 6 := by
        rw [List.length_append]
        omega
      have hp2 : parseExpr (6 * (w ++ (ws ++ c :: r)).length + 6) (pInit w) =
          Except.ok (g, sfin) :=
        (parse_mono (6 * w.length + 6)).1 _ _ _ hlen hp
      obtain ⟨t', hp3, _⟩ :=
        (parse_ext (ws ++ c :: r) hv (6 * (w ++ (ws ++ c :: r)).length + 6)).1
          (pInit w) (pInit (w ++ (ws ++ c :: r))) g sfin
          (pInit_rel (ws ++ c :: r) hv w) hp2
      simp only [hp3]

/-- C10 applied to `"env:prod"` followed by a space, the junk character `&`,
and the text `" OR x:y"` — which is ignored even though it looks like a
valid continuation. -/
theorem c10_witness :
    ParseFilter "env:prod".toList = Except.ok (some (Filter.TagFilter "env" "prod")) ∧
    ParseFilter ("env:prod".toList ++ ([' '] ++ '&' :: " OR x:y".toList)) =
      Except.ok (some (Filter.TagFilter "env" "prod")) :=
  ⟨rfl,
   c10_trailing_junk "env:prod".toList [' '] " OR x:y".toList '&'
     (Filter.TagFilter "env" "prod") rfl (by decide) (by decide) (by decide)
     (by decide) (by decide) (by decide)⟩

/-- C9: an empty tag key makes `formatTagKey` fall back to the bare metric
key, so `GetSeriesIDs m "" v` coincides with `GetAllSeriesIDs m` for every
tag value and every index state — bitmap and state effects included. -/
theorem c9_empty_tagkey_metric_posting (st : IdxState) (metric tagValue : String) :
    GetSeriesIDs st metric "" tagValue = GetAllSeriesIDs st metric := by
  unfold GetSeriesIDs GetAllSeriesIDs formatTagKey
  simp

end Ktsdb
